import Mathlib

/-!
Verification of the user-scoped filesystem access layer of the markdown-notes
backend (`backend/app/services/file_service.py`, `backend/app/api/routes/files.py`,
`backend/app/api/routes/public.py`).

Shallow embedding conventions:
* Python strings are modelled as `List Char` (ASCII fragment; `str.lower`,
  `str.strip` and the filename character class are ASCII in all inputs the
  claims exercise).
* Filesystem paths are lists of path segments (`List (List Char)`), mirroring
  `pathlib` parsing, which drops empty segments and `"."` segments at
  construction.  Since `_validate_path` rejects any input containing `".."`,
  `Path.resolve` is lexical identity on the joined path; symlinks are outside
  the model.
* The filesystem is a finite tree of named files and directories.  The
  `readable` flag models permission: an unreadable directory cannot be listed
  (`PermissionError` in `get_tree`, skipped subtree in `rglob`), an unreadable
  file cannot be opened (skipped in `search_files`).
* The metadata store (`files` table) is a list of `FileRecord`s; the database
  integration of `write_file`/`delete_file` (the `db=` parameter that
  `routes/files.py` passes) is absent from the service source snapshot, so the
  upsert/remove operations are modelled from the spec where indicated.
-/

/-- Error taxonomy of the spec (§7): `ValueError` raised by `_validate_path`
maps to `invalidPath`, the filename/folder-name character rules to
`invalidName`, the missing-`.md` check to `invalidExtension`,
`FileNotFoundError` to `notFound`, FastAPI request-validation failures (422)
to `validation`, and any other error to `unexpected`. -/
inductive Err where
  | invalidPath
  | invalidName
  | invalidExtension
  | notFound
  | alreadyExists
  | validation
  | unexpected
deriving Repr, DecidableEq

/-! ## String primitives (Python `str` operations on `List Char`) -/

/-- Characters removed by Python's `str.strip()` (ASCII whitespace). -/
def isStripSpace (c : Char) : Bool :=
  c == ' ' || c == '\t' || c == '\n' || c == '\r' || c == '\x0b' || c == '\x0c'

/-- Python `s.strip(chars)`: remove characters satisfying `p` from both ends. -/
def dropEnds (p : Char → Bool) (l : List Char) : List Char :=
  ((l.dropWhile p).reverse.dropWhile p).reverse

/-- The trimming performed by `_validate_path`:
`user_path.strip("/").strip()`. -/
def stripPath (l : List Char) : List Char :=
  dropEnds isStripSpace (dropEnds (· == '/') l)

/-- Python `needle in hay` (substring test), on `List Char`. -/
def substrIn (needle : List Char) : List Char → Bool
  | [] => needle.isEmpty
  | c :: t => needle.isPrefixOf (c :: t) || substrIn needle t

/-- Split a character list at every occurrence of `sep`, keeping empty pieces
(the semantics of Python `str.split(sep)` for a one-character separator). -/
def splitOnChar (sep : Char) : List Char → List (List Char)
  | [] => [[]]
  | c :: t =>
      let r := splitOnChar sep t
      if c == sep then [] :: r
      else
        match r with
        | [] => [[c]]
        | h :: rest => (c :: h) :: rest

/-- `pathlib` parsing of a relative path string into segments: split on `/`,
dropping empty segments and `"."` segments (both are normalized away by
`PurePath` construction). -/
def segsOf (l : List Char) : List (List Char) :=
  (splitOnChar '/' l).filter (fun seg => !seg.isEmpty && seg != ['.'])

/-- Python `"a/b".lower()` on the ASCII fragment: `Char.toLower` maps
`'A'..'Z'` to `'a'..'z'` and fixes everything else. -/
def lowerStr (l : List Char) : List Char :=
  l.map Char.toLower

/-- Join path segments back into a slash-separated string
(`str(path.relative_to(user_dir))`). -/
def joinSegs : List (List Char) → List Char
  | [] => []
  | [s] => s
  | s :: rest => s ++ '/' :: joinSegs rest

/-- Insert into a sorted list in front of the first element the key does not
exceed (auxiliary for `sortLe`). -/
def insertLe {α : Type} (le : α → α → Bool) (x : α) : List α → List α
  | [] => [x]
  | y :: t => if le x y then x :: y :: t else y :: insertLe le x t

/-- Stable insertion sort by a boolean comparison — the embedding of Python's
`sorted(..., key=...)` and SQL `ORDER BY`: a stable reordering such that the
comparison holds between every pair of adjacent (hence, with a total
transitive comparison, any two) elements. -/
def sortLe {α : Type} (le : α → α → Bool) : List α → List α
  | [] => []
  | x :: t => insertLe le x (sortLe le t)

theorem mem_insertLe {α : Type} {le : α → α → Bool} {x a : α} {l : List α} :
    a ∈ insertLe le x l ↔ a = x ∨ a ∈ l := by
  induction l with
  | nil => simp [insertLe]
  | cons y t ih =>
      by_cases h : le x y = true
      · simp [insertLe, h]
      · simp only [insertLe, h, Bool.false_eq_true, if_false, List.mem_cons, ih]
        tauto

theorem mem_sortLe {α : Type} {le : α → α → Bool} {a : α} {l : List α} :
    a ∈ sortLe le l ↔ a ∈ l := by
  induction l with
  | nil => simp [sortLe]
  | cons x t ih => simp [sortLe, mem_insertLe, ih]

/-! ## PathSandbox: `FileService._validate_path` and `_get_user_dir` -/

/-- The segments of the per-user root directory, relative to the notes root:
`self.notes_dir / f"user_{user_id}"` (`FileService._get_user_dir`). -/
def userDirSegs (userId : List Char) : List (List Char) :=
  segsOf ("user_".data ++ userId)

/-- The pure string part of `FileService._validate_path`: the empty check (on
the untrimmed input), `strip("/").strip()`, the `".." in user_path` and
`user_path.startswith("/")` checks, and `pathlib` parsing of the surviving
relative path into segments.  Returns the relative segments to be joined onto
the user's root. -/
def validateRel (userPath : List Char) : Except Err (List (List Char)) :=
  if userPath.isEmpty then .error .invalidPath
  else
    let p := stripPath userPath
    if substrIn ['.', '.'] p || p.head? == some '/' then .error .invalidPath
    else .ok (segsOf p)

/-- The filename rule of `FileService._validate_filename`:
`^[a-zA-Z0-9._\-]+$`. -/
def validFilenameChar (c : Char) : Bool :=
  c.isAlpha || c.isDigit || c == '.' || c == '_' || c == '-'

/-- `FileService._validate_filename` as a predicate: the name matches
`^[a-zA-Z0-9._\-]+$` (nonempty, every character in the class). -/
def validate_filename (name : List Char) : Bool :=
  !name.isEmpty && name.all validFilenameChar

/-- The `.md`-extension rule of `write_file`: `full_path.name.endswith('.md')`. -/
def endsWithMd (name : List Char) : Bool :=
  List.isSuffixOf ['.', 'm', 'd'] name

/-! ## Filesystem model -/

/-- A node of the notes filesystem: a regular file with content, or a
directory with an ordered child list (OS listing order).  `readable := false`
models a permission-denied entry. -/
inductive FsNode where
  | file (name : List Char) (content : List Char) (readable : Bool)
  | dir (name : List Char) (children : List FsNode) (readable : Bool)

def FsNode.name : FsNode → List Char
  | .file n _ _ => n
  | .dir n _ _ => n

def FsNode.isFile : FsNode → Bool
  | .file .. => true
  | .dir .. => false

/-- Find the child with the given name (directory entries; on a real
filesystem names are unique, see `wfFs`). -/
def findChild (cs : List FsNode) (s : List Char) : Option FsNode :=
  cs.find? (fun c => c.name == s)

/-- Replace the first child with the given name. -/
def replaceChild : List FsNode → List Char → FsNode → List FsNode
  | [], _, _ => []
  | x :: t, s, c => if x.name == s then c :: t else x :: replaceChild t s c

/-- Remove the first child with the given name (`unlink` / `rmtree` at the
parent). -/
def removeChild : List FsNode → List Char → List FsNode
  | [], _ => []
  | x :: t, s => if x.name == s then t else x :: removeChild t s

/-- Resolve a path below a node (`Path.exists` / `is_file` / `is_dir` /
`open` all stat this way). -/
def lookup : FsNode → List (List Char) → Option FsNode
  | n, [] => some n
  | .dir _ cs _, s :: rest =>
      match findChild cs s with
      | some c => lookup c rest
      | none => none
  | .file .., _ :: _ => none

/-- `Path.mkdir(parents=True, exist_ok=True)`: create every missing directory
along the path; fails (`FileExistsError` / `NotADirectoryError`) if a regular
file is in the way. -/
def mkdirs : FsNode → List (List Char) → Except Err FsNode
  | n, [] =>
      match n with
      | .dir .. => .ok n
      | .file .. => .error .unexpected
  | .file .., _ :: _ => .error .unexpected
  | .dir nm cs r, s :: rest =>
      match findChild cs s with
      | some c => (mkdirs c rest).map (fun c2 => .dir nm (replaceChild cs s c2) r)
      | none => (mkdirs (.dir s [] true) rest).map (fun c2 => .dir nm (cs ++ [c2]) r)

/-- `open(full_path, 'w')` after the parents exist: create or overwrite a
regular file at the path.  Fails (`IsADirectoryError`) if the target is a
directory, fails if an intermediate directory is missing or a file blocks the
path, and fails (`PermissionError`) if the target exists but is not
accessible. -/
def putFile : FsNode → List (List Char) → List Char → Except Err FsNode
  | _, [], _ => .error .unexpected
  | .file .., _ :: _, _ => .error .unexpected
  | .dir nm cs r, s :: rest, content =>
      match rest with
      | [] =>
          match findChild cs s with
          | none => .ok (.dir nm (cs ++ [.file s content true]) r)
          | some (.file _ _ rd) =>
              if rd then .ok (.dir nm (replaceChild cs s (.file s content true)) r)
              else .error .unexpected
          | some (.dir ..) => .error .unexpected
      | _ :: _ =>
          match findChild cs s with
          | some c => (putFile c rest content).map (fun c2 => .dir nm (replaceChild cs s c2) r)
          | none => .error .unexpected

/-- Remove the entry at the path (`unlink` for files, `shutil.rmtree` for
directories — both detach the whole entry at the parent). -/
def removeAt : FsNode → List (List Char) → FsNode
  | n, [] => n
  | .file nm co rd, _ :: _ => .file nm co rd
  | .dir nm cs r, s :: rest =>
      match rest with
      | [] => .dir nm (removeChild cs s) r
      | _ :: _ =>
          match findChild cs s with
          | some c => .dir nm (replaceChild cs s (removeAt c rest)) r
          | none => .dir nm cs r

mutual
/-- Well-formedness of a filesystem tree: sibling names are distinct (true of
any real directory). -/
def wfFs : FsNode → Bool
  | .file .. => true
  | .dir _ cs _ => decide ((cs.map FsNode.name).Nodup) && wfList cs
def wfList : List FsNode → Bool
  | [] => true
  | c :: t => wfFs c && wfList t
end

/-- `FileService._validate_path`, stateful part included: after the string
checks the service calls `_get_user_dir` (which calls `mkdir(parents=True,
exist_ok=True)`), joins the relative path onto the user root, resolves it, and
verifies `full_path.is_relative_to(user_dir)`.  Returns the updated notes root
together with the resolved absolute path (as segments below the notes
root). -/
def validate_path (fs : FsNode) (userId userPath : List Char) :
    Except Err (FsNode × List (List Char)) :=
  match validateRel userPath with
  | .error e => .error e
  | .ok segs =>
    match mkdirs fs (userDirSegs userId) with
    | .error e => .error e
    | .ok fs1 =>
      if (userDirSegs userId).isPrefixOf (userDirSegs userId ++ segs) then
        .ok (fs1, userDirSegs userId ++ segs)
      else .error .invalidPath

/-! ## MetadataIndex: the `files` table (`models/file.py`) -/

/-- A row of the `files` table (`models/file.py`): id (UUID, modelled as an
opaque `Nat`), owner, relative path within the owner's root, title, privacy
flag, optional cached preview, and timestamps (modelled as `Nat` instants). -/
structure FileRecord where
  id : Nat
  user_id : List Char
  file_path : List Char
  title : List Char
  is_public : Bool
  preview : Option (List Char)
  created_at : Nat
  updated_at : Nat
deriving Repr, DecidableEq

/-- Modelled from the spec: the title derivation of the metadata layer absent
from the service snapshot ("derives title (e.g., from filename or first
heading)", §4.3): the text of a leading `# ` heading when present, otherwise
the filename. -/
def deriveTitle (name : List Char) (content : List Char) : List Char :=
  match splitOnChar '\n' content with
  | firstLine :: _ =>
      if ['#', ' '].isPrefixOf firstLine then firstLine.drop 2 else name
  | [] => name

/-- Modelled from the spec: the preview derivation ("a preview (first ~200
characters of content, normalized)", §4.3). -/
def derivePreview (content : List Char) : List Char :=
  content.take 200

/-- Modelled from the spec: `MetadataIndex.upsert(owner, path, title,
preview)` — the FileRecord upsert the `db=` parameter of `write_file` performs
(absent from the service source snapshot; `routes/files.py` passes `db=` and
returns the resulting `file_id`).  Insert if no record matches `(owner,
path)`, else update title/preview/updated_at in place; returns the updated
table and the record id. -/
def upsertRecord (db : List FileRecord) (owner rel title preview : List Char)
    (now freshId : Nat) : List FileRecord × Nat :=
  match db.find? (fun r => r.user_id == owner && r.file_path == rel) with
  | some r =>
      (db.map (fun x =>
        if x.user_id == owner && x.file_path == rel then
          { x with title := title, preview := some preview, updated_at := now }
        else x), r.id)
  | none =>
      (db ++ [{ id := freshId, user_id := owner, file_path := rel, title := title,
                is_public := false, preview := some preview,
                created_at := now, updated_at := now }], freshId)

/-- Modelled from the spec: `MetadataIndex.remove(owner, path)` — the record
removal `delete_file` performs through its `db=` parameter (absent from the
service source snapshot), a no-op if no record matches. -/
def removeRecord (db : List FileRecord) (owner rel : List Char) : List FileRecord :=
  db.filter (fun r => !(r.user_id == owner && r.file_path == rel))

/-! ## FileStore operations (`FileService`) -/

/-- `FileService.read_file`: validate the path, fail `NotFound` if absent,
fail `InvalidPath` ("Path is not a file") on a directory, read the content
(`PermissionError` on an inaccessible file maps to `unexpected`). -/
def read_file (fs : FsNode) (userId path : List Char) : Except Err (List Char) :=
  match validate_path fs userId path with
  | .error e => .error e
  | .ok (fs1, full) =>
    match lookup fs1 full with
    | none => .error .notFound
    | some (.dir ..) => .error .invalidPath
    | some (.file _ c rd) => if rd then .ok c else .error .unexpected

/-- `FileService.write_file` (with the metadata integration its caller
`routes/files.py:create_file` uses): validate the path, validate the final
filename, require the `.md` extension, create parent directories, write the
file, then (modelled from the spec) upsert the FileRecord for `(owner,
relative path)` and return the record id.  `now`/`freshId` stand for the
clock and UUID generator. -/
def write_file (fs : FsNode) (db : List FileRecord) (userId path content : List Char)
    (now freshId : Nat) : Except Err (FsNode × List FileRecord × Nat) :=
  match validate_path fs userId path with
  | .error e => .error e
  | .ok (fs1, full) =>
    if !validate_filename (full.getLastD []) then .error .invalidName
    else if !endsWithMd (full.getLastD []) then .error .invalidExtension
    else
      match mkdirs fs1 full.dropLast with
      | .error e => .error e
      | .ok fs2 =>
        match putFile fs2 full content with
        | .error e => .error e
        | .ok fs3 =>
          let rel := joinSegs (full.drop (userDirSegs userId).length)
          let dbrid := upsertRecord db userId rel (deriveTitle (full.getLastD []) content)
                        (derivePreview content) now freshId
          .ok (fs3, dbrid.1, dbrid.2)

/-- `FileService.delete_file` (with the record removal its caller
`routes/files.py:delete_file` performs through `db=`): fail `NotFound` if
absent, fail `InvalidPath` ("Path is not a file") on a directory, unlink the
file, then (modelled from the spec) remove any matching FileRecord — a no-op
when none exists. -/
def delete_file (fs : FsNode) (db : List FileRecord) (userId path : List Char) :
    Except Err (FsNode × List FileRecord) :=
  match validate_path fs userId path with
  | .error e => .error e
  | .ok (fs1, full) =>
    match lookup fs1 full with
    | none => .error .notFound
    | some (.dir ..) => .error .invalidPath
    | some (.file ..) =>
        .ok (removeAt fs1 full,
          removeRecord db userId (joinSegs (full.drop (userDirSegs userId).length)))

/-- `FileService.delete_folder`: fail `NotFound` if absent, fail `InvalidPath`
("Path is not a folder") on a file, `shutil.rmtree` otherwise. -/
def delete_folder (fs : FsNode) (userId path : List Char) : Except Err FsNode :=
  match validate_path fs userId path with
  | .error e => .error e
  | .ok (fs1, full) =>
    match lookup fs1 full with
    | none => .error .notFound
    | some (.file ..) => .error .invalidPath
    | some (.dir ..) => .ok (removeAt fs1 full)

/-! ## Privacy toggle (`routes/files.py:update_file_privacy`) -/

/-- `routes/files.py:update_file_privacy`: select the record matching both the
id and the requesting owner (`File.id == file_id, File.user_id ==
current_user.id` with `scalar_one_or_none`); 404 if none; otherwise set
`is_public` and commit.  Returns the updated table. -/
def update_file_privacy (db : List FileRecord) (file_id : Nat) (userId : List Char)
    (is_public : Bool) : Except Err (List FileRecord) :=
  match db.filter (fun r => r.id == file_id && r.user_id == userId) with
  | [] => .error .notFound
  | [_] => .ok (db.map (fun r =>
      if r.id == file_id && r.user_id == userId then { r with is_public := is_public }
      else r))
  | _ => .error .unexpected

/-! ## Public feed (`routes/public.py:get_public_notes`) -/

/-- A row of the `users` table, as far as the feed join needs it. -/
structure UserRow where
  id : List Char
  username : List Char
deriving Repr, DecidableEq

/-- One element of the public feed response (`PublicNoteResponse`). -/
structure PublicNote where
  id : Nat
  title : List Char
  preview : Option (List Char)
  username : List Char
  user_id : List Char
  created_at : Nat
  updated_at : Nat
deriving Repr, DecidableEq

/-- `routes/public.py:get_public_notes`: FastAPI validates the query
parameters (`limit: int = Query(20, le=100)`, `offset: int = Query(0, ge=0)`;
a violation is rejected with a 422 validation error before the handler runs,
and an omitted `limit` defaults to 20); the handler then selects public files
joined with their owner's username, ordered by `created_at` descending, with
`LIMIT`/`OFFSET` applied after ordering. -/
def get_public_notes (db : List FileRecord) (users : List UserRow)
    (limit : Option Int) (offset : Int) : Except Err (List PublicNote) :=
  if limit.getD 20 > 100 then .error .validation
  else if offset < 0 then .error .validation
  else
    .ok (((((sortLe (fun a b => decide (b.1.created_at ≤ a.1.created_at))
        ((db.filter (·.is_public)).filterMap
          (fun f => (users.find? (fun u => u.id == f.user_id)).map
            (fun u => (f, u.username)))))).drop offset.toNat).take
              (limit.getD 20).toNat).map
      (fun fu => { id := fu.1.id, title := fu.1.title, preview := fu.1.preview,
                   username := fu.2, user_id := fu.1.user_id,
                   created_at := fu.1.created_at, updated_at := fu.1.updated_at }))

/-! ## TreeBuilder (`FileService.get_tree`) -/

/-- A node of the tree listing (`get_tree`'s nested dicts): `name`, `path`
(relative segments below the user root) and, for folders, ordered children. -/
inductive TreeNode where
  | file (name : List Char) (path : List (List Char))
  | folder (name : List Char) (path : List (List Char)) (children : List TreeNode)

def TreeNode.name : TreeNode → List Char
  | .file n _ => n
  | .folder n _ _ => n

def TreeNode.isFile : TreeNode → Bool
  | .file .. => true
  | .folder .. => false

def TreeNode.path : TreeNode → List (List Char)
  | .file _ p => p
  | .folder _ p _ => p

/-- The sort key of `get_tree`: `sorted(path.iterdir(), key=lambda p:
(p.is_file(), p.name))` — tuple comparison puts directories (`False`) before
files (`True`) and compares names lexicographically within each kind. -/
def charListLe (a b : List Char) : Bool :=
  match a, b with
  | [], _ => true
  | _ :: _, [] => false
  | x :: xs, y :: ys => x < y || (x == y && charListLe xs ys)

/-- Comparison of `(is_file, name)` keys (Python tuple order, `False < True`). -/
def nodeKeyLe (a b : FsNode) : Bool :=
  (!a.isFile && b.isFile) || (a.isFile == b.isFile && charListLe a.name b.name)

/-- The hidden-entry skip of `get_tree`: `child.name.startswith('.')`. -/
def isHiddenName (n : List Char) : Bool :=
  n.head? == some '.'

/-- The child list `get_tree` recurses over: the directory listing sorted by
`(is_file, name)` with hidden entries skipped; an unreadable directory raises
`PermissionError`, which is swallowed into an empty child list. -/
def visibleSorted (cs : List FsNode) : List FsNode :=
  (sortLe nodeKeyLe cs).filter (fun c => !isHiddenName c.name)

/-- Membership in the child list `build_tree` recurses over implies
membership in the raw listing (used for termination). -/
theorem mem_of_visibleKids {c : FsNode} {cs : List FsNode} {b : Bool}
    (h : c ∈ (if b then visibleSorted cs else [])) : c ∈ cs := by
  split at h
  · exact mem_sortLe.mp (List.mem_filter.mp h).1
  · simp at h

/-- The recursive `build_tree` helper of `get_tree`: wrap a file as a leaf,
wrap a directory with its recursively built, ordered, hidden-free children.
`rel` is the node's path relative to the user root. -/
def build_tree (rel : List (List Char)) (t : FsNode) : TreeNode :=
  match t with
  | .file nm _ _ => .file nm rel
  | .dir nm cs r =>
      .folder nm rel ((if r then visibleSorted cs else []).attach.map
        (fun c => build_tree (rel ++ [c.1.name]) c.1))
termination_by sizeOf t
decreasing_by
  have h2 := List.sizeOf_lt_of_mem (mem_of_visibleKids c.2)
  simp only [FsNode.dir.sizeOf_spec]
  omega

/-- `FileService.get_tree`: build the tree rooted at the user's directory
(created on access by `_get_user_dir`) and return only its children — the
synthetic root node itself is dropped (`tree.get("children", [])`). -/
def get_tree (fs : FsNode) (userId : List Char) : Except Err (List TreeNode) :=
  match mkdirs fs (userDirSegs userId) with
  | .error e => .error e
  | .ok fs1 =>
    match lookup fs1 (userDirSegs userId) with
    | some root =>
        match build_tree [] root with
        | .folder _ _ children => .ok children
        | .file .. => .ok []
    | none => .error .unexpected

/-! ## SearchEngine (`FileService.search_files`) -/

/-- An entry produced by `user_dir.rglob("*.md")`: the relative path segments
of a `*.md` file found below the user root (recursing into every readable
directory, hidden or not — `pathlib` glob does not special-case dotfiles),
with its content and readability. -/
structure MdEntry where
  path : List (List Char)
  content : List Char
  readable : Bool
deriving Repr, DecidableEq

mutual
/-- `user_dir.rglob("*.md")` over the model tree: recurse through every
readable directory in listing order, collecting files whose name ends in
`.md`.  (`rglob` swallows `PermissionError` on unreadable directories; a
directory named `*.md` is also yielded by the real glob, but `open()` then
fails `IsADirectoryError` and `search_files` skips it, so only files are
collected.) -/
def rglobMd : FsNode → List MdEntry
  | .file .. => []
  | .dir _ cs r => if r then rglobList cs else []
def rglobList : List FsNode → List MdEntry
  | [] => []
  | c :: t =>
      (match c with
       | .file nm co rd => if endsWithMd nm then [⟨[nm], co, rd⟩] else []
       | .dir nm _ _ => (rglobMd c).map (fun e => ⟨nm :: e.path, e.content, e.readable⟩)) ++
      rglobList t
end

/-- Python `query_lower in content.lower()`: case-insensitive substring
containment. -/
def containsCI (hay needle : List Char) : Bool :=
  substrIn (lowerStr needle) (lowerStr hay)

/-- The preview snippet of `search_files`: the first line (by `'\n'`
splitting) that case-insensitively contains the query, else the first line,
truncated to 100 characters (`matching_line[:100]`). -/
def searchSnippet (content query : List Char) : List Char :=
  let lines := splitOnChar '\n' content
  let matching := (lines.find? (fun line => substrIn (lowerStr query) (lowerStr line))).getD
    (lines.headD [])
  matching.take 100

/-- One result of `search_files`: relative path, filename, preview snippet. -/
structure SearchResult where
  path : List Char
  name : List Char
  preview : List Char
deriving Repr, DecidableEq

/-- The body of `FileService.search_files` below the user root: for every
`rglob("*.md")` entry, skip it if unreadable (`except Exception: continue`),
keep it if the lowered content contains the lowered query, and attach the
snippet. -/
def searchIn (userRoot : FsNode) (query : List Char) : List SearchResult :=
  (rglobMd userRoot).filterMap (fun e =>
    if e.readable && containsCI e.content query then
      some ⟨joinSegs e.path, e.path.getLastD [], searchSnippet e.content query⟩
    else none)

/-- `FileService.search_files`: ensure the user directory exists
(`_get_user_dir`), then scan it. -/
def search_files (fs : FsNode) (userId query : List Char) :
    Except Err (List SearchResult) :=
  match mkdirs fs (userDirSegs userId) with
  | .error e => .error e
  | .ok fs1 =>
    match lookup fs1 (userDirSegs userId) with
    | some root => .ok (searchIn root query)
    | none => .error .unexpected

/-- Declarative counterpart used to state what `search_files` returns: `p`
addresses a file below `t` reachable through readable directories (the root
listing included), yielding its content and its own readability. -/
def reachableFile : FsNode → List (List Char) → Option (List Char × Bool)
  | .file _ c rd, [] => some (c, rd)
  | .dir .., [] => none
  | .file .., _ :: _ => none
  | .dir _ cs r, s :: rest =>
      if r then (findChild cs s).bind (fun ch => reachableFile ch rest) else none

/-! ## Basic lemmas about directory-entry operations -/

theorem beqTrue {a b : List Char} (h : a = b) : (a == b) = true :=
  beq_iff_eq.mpr h

theorem beqFalse {a b : List Char} (h : a ≠ b) : (a == b) = false :=
  beq_eq_false_iff_ne.mpr h

theorem findChild_cons (c : FsNode) (t : List FsNode) (s : List Char) :
    findChild (c :: t) s = if c.name = s then some c else findChild t s := by
  by_cases h : c.name = s
  · simp [findChild, List.find?_cons, h]
  · simp [findChild, List.find?_cons, h]

theorem findChild_mem {cs : List FsNode} {s : List Char} {c : FsNode}
    (h : findChild cs s = some c) : c ∈ cs := by
  unfold findChild at h
  exact List.mem_of_find?_eq_some h

theorem findChild_name {cs : List FsNode} {s : List Char} {c : FsNode}
    (h : findChild cs s = some c) : c.name = s := by
  unfold findChild at h
  have hp := List.find?_some h
  simpa [beq_iff_eq] using hp

theorem findChild_eq_none {cs : List FsNode} {s : List Char}
    (h : s ∉ cs.map FsNode.name) : findChild cs s = none := by
  unfold findChild
  rw [List.find?_eq_none]
  intro x hx hbeq
  exact h (List.mem_map.mpr ⟨x, hx, beq_iff_eq.mp hbeq⟩)

theorem name_mem_of_findChild {cs : List FsNode} {s : List Char} {c : FsNode}
    (h : findChild cs s = some c) : s ∈ cs.map FsNode.name :=
  List.mem_map.mpr ⟨c, findChild_mem h, findChild_name h⟩

theorem findChild_append_of_none {cs l : List FsNode} {s : List Char}
    (h : findChild cs s = none) : findChild (cs ++ l) s = findChild l s := by
  induction cs with
  | nil => rfl
  | cons c t ih =>
      rw [findChild_cons] at h
      rw [List.cons_append, findChild_cons]
      split at h
      · exact absurd h (by simp)
      · rw [if_neg (by assumption)]
        exact ih h

theorem replaceChild_self {cs : List FsNode} {s : List Char} {c : FsNode}
    (h : findChild cs s = some c) : replaceChild cs s c = cs := by
  induction cs with
  | nil => simp [findChild] at h
  | cons x t ih =>
      rw [findChild_cons] at h
      by_cases hx : x.name = s
      · rw [if_pos hx] at h
        simp only [replaceChild, beqTrue hx, if_true]
        simp at h
        rw [h]
      · rw [if_neg hx] at h
        simp only [replaceChild, beqFalse hx, Bool.false_eq_true, if_false]
        rw [ih h]

theorem findChild_replaceChild {cs : List FsNode} {s : List Char} {c c2 : FsNode}
    (h : findChild cs s = some c) (hc2 : c2.name = s) :
    findChild (replaceChild cs s c2) s = some c2 := by
  induction cs with
  | nil => simp [findChild] at h
  | cons x t ih =>
      rw [findChild_cons] at h
      by_cases hx : x.name = s
      · simp only [replaceChild, beqTrue hx, if_true]
        rw [findChild_cons, if_pos hc2]
      · simp only [replaceChild, beqFalse hx, Bool.false_eq_true, if_false]
        rw [findChild_cons, if_neg hx]
        rw [if_neg hx] at h
        exact ih h

theorem findChild_replaceChild_ne {cs : List FsNode} {s t : List Char} {c2 : FsNode}
    (hne : t ≠ s) (hc2 : c2.name = s) :
    findChild (replaceChild cs s c2) t = findChild cs t := by
  induction cs with
  | nil => rfl
  | cons x xs ih =>
      by_cases hx : x.name = s
      · simp only [replaceChild, beqTrue hx, if_true]
        rw [findChild_cons, if_neg (fun he => hne ((hc2 ▸ he : s = t).symm)),
          findChild_cons, if_neg (fun he => hne ((hx ▸ he : s = t).symm))]
      · simp only [replaceChild, beqFalse hx, Bool.false_eq_true, if_false]
        rw [findChild_cons, findChild_cons, ih]

theorem replaceChild_map_name {cs : List FsNode} {s : List Char} {c c2 : FsNode}
    (h : findChild cs s = some c) (hname : c2.name = c.name) :
    (replaceChild cs s c2).map FsNode.name = cs.map FsNode.name := by
  induction cs with
  | nil => rfl
  | cons x t ih =>
      rw [findChild_cons] at h
      by_cases hx : x.name = s
      · rw [if_pos hx] at h
        simp only [replaceChild, beqTrue hx, if_true, List.map_cons]
        simp at h
        rw [hname, h]
      · rw [if_neg hx] at h
        simp only [replaceChild, beqFalse hx, Bool.false_eq_true, if_false, List.map_cons]
        rw [ih h]

theorem findChild_removeChild_ne {cs : List FsNode} {s t : List Char}
    (hne : t ≠ s) : findChild (removeChild cs s) t = findChild cs t := by
  induction cs with
  | nil => rfl
  | cons x xs ih =>
      by_cases hx : x.name = s
      · simp only [removeChild, beqTrue hx, if_true]
        rw [findChild_cons, if_neg (fun he => hne ((hx ▸ he : s = t).symm))]
      · simp only [removeChild, beqFalse hx, Bool.false_eq_true, if_false]
        rw [findChild_cons, findChild_cons, ih]

theorem findChild_removeChild_of_nodup {cs : List FsNode} {s : List Char}
    (hnd : (cs.map FsNode.name).Nodup) :
    findChild (removeChild cs s) s = none := by
  induction cs with
  | nil => rfl
  | cons x t ih =>
      simp only [List.map_cons, List.nodup_cons] at hnd
      by_cases hx : x.name = s
      · simp only [removeChild, beqTrue hx, if_true]
        exact findChild_eq_none (hx ▸ hnd.1)
      · simp only [removeChild, beqFalse hx, Bool.false_eq_true, if_false]
        rw [findChild_cons, if_neg hx]
        exact ih hnd.2

/-! ## Lemmas about `mkdirs` -/

theorem mkdirs_name {n n' : FsNode} {p : List (List Char)} (h : mkdirs n p = .ok n') :
    n'.name = n.name := by
  match n, p with
  | .dir nm cs r, [] =>
      simp only [mkdirs, Except.ok.injEq] at h
      rw [← h]
  | .file .., [] => simp [mkdirs] at h
  | .file .., _ :: _ => simp [mkdirs] at h
  | .dir nm cs r, s :: rest =>
      simp only [mkdirs] at h
      split at h
      all_goals {
        rename_i hf
        cases hmk : mkdirs _ rest with
        | ok c2 =>
            rw [hmk] at h
            simp only [Except.map, Except.ok.injEq] at h
            rw [← h]
            rfl
        | error e => rw [hmk] at h; simp [Except.map] at h
      }

theorem findChild_append_last {cs : List FsNode} {t : List Char} {ct c2 : FsNode}
    (hft : findChild cs t = some ct) : findChild (cs ++ [c2]) t = some ct := by
  induction cs with
  | nil => simp [findChild] at hft
  | cons x xs ih =>
      rw [List.cons_append, findChild_cons]
      rw [findChild_cons] at hft
      split at hft
      · rw [if_pos (by assumption)]
        exact hft
      · rw [if_neg (by assumption)]
        exact ih hft

theorem mkdirs_lookup_dir {p : List (List Char)} :
    ∀ {n n' : FsNode}, mkdirs n p = .ok n' →
    ∃ nm2 cs2 r2, lookup n' p = some (.dir nm2 cs2 r2) := by
  induction p with
  | nil =>
      intro n n' h
      match n with
      | .dir nm cs r =>
          simp only [mkdirs, Except.ok.injEq] at h
          exact ⟨nm, cs, r, by rw [← h]; rfl⟩
      | .file .. => simp [mkdirs] at h
  | cons s rest ih =>
      intro n n' h
      match n with
      | .file .. => simp [mkdirs] at h
      | .dir nm cs r =>
          simp only [mkdirs] at h
          split at h
          · rename_i c hf
            cases hmk : mkdirs c rest with
            | ok c2 =>
                rw [hmk] at h
                simp only [Except.map, Except.ok.injEq] at h
                obtain ⟨nm2, cs2, r2, hl⟩ := ih hmk
                refine ⟨nm2, cs2, r2, ?_⟩
                rw [← h]
                simp only [lookup]
                rw [findChild_replaceChild hf
                  (by rw [mkdirs_name hmk]; exact findChild_name hf)]
                exact hl
            | error e => rw [hmk] at h; simp [Except.map] at h
          · rename_i hf
            cases hmk : mkdirs (.dir s [] true) rest with
            | ok c2 =>
                rw [hmk] at h
                simp only [Except.map, Except.ok.injEq] at h
                obtain ⟨nm2, cs2, r2, hl⟩ := ih hmk
                refine ⟨nm2, cs2, r2, ?_⟩
                rw [← h]
                simp only [lookup]
                rw [findChild_append_of_none hf]
                rw [show findChild [c2] s = some c2 by
                  rw [findChild_cons, if_pos (show c2.name = s from mkdirs_name hmk)]]
                exact hl
            | error e => rw [hmk] at h; simp [Except.map] at h

theorem mkdirs_noop {p : List (List Char)} :
    ∀ {n : FsNode} {nm : List Char} {cs : List FsNode} {r : Bool},
    lookup n p = some (.dir nm cs r) → mkdirs n p = .ok n := by
  induction p with
  | nil =>
      intro n nm cs r h
      simp only [lookup, Option.some.injEq] at h
      rw [h]
      rfl
  | cons s rest ih =>
      intro n nm cs r h
      match n with
      | .file .. => simp [lookup] at h
      | .dir nm0 cs0 r0 =>
          simp only [lookup] at h
          cases hf : findChild cs0 s with
          | some c =>
              rw [hf] at h
              simp only [mkdirs, hf]
              rw [ih h]
              simp only [Except.map, Except.ok.injEq]
              rw [replaceChild_self hf]
          | none => rw [hf] at h; exact absurd h (by simp)

theorem mkdirs_pres_dir {p : List (List Char)} :
    ∀ {n n' : FsNode} {q : List (List Char)} {nmq : List Char} {csq : List FsNode} {rq : Bool},
    mkdirs n p = .ok n' → lookup n q = some (.dir nmq csq rq) →
    ∃ cs2, lookup n' q = some (.dir nmq cs2 rq) := by
  induction p with
  | nil =>
      intro n n' q nmq csq rq h hl
      match n with
      | .dir nm cs r =>
          simp only [mkdirs, Except.ok.injEq] at h
          exact ⟨csq, by rw [← h]; exact hl⟩
      | .file .. => simp [mkdirs] at h
  | cons s rest ih =>
      intro n n' q nmq csq rq h hl
      match n with
      | .file .. => simp [mkdirs] at h
      | .dir nm0 cs0 r0 =>
          simp only [mkdirs] at h
          match q with
          | [] =>
              simp only [lookup, Option.some.injEq] at hl
              split at h
              all_goals
                rename_i hf
                cases hmk : mkdirs _ rest with
                | ok c2 =>
                    rw [hmk] at h
                    simp only [Except.map, Except.ok.injEq] at h
                    subst h
                    injection hl with e1 e2 e3
                    subst e1
                    subst e3
                    exact ⟨_, rfl⟩
                | error e => rw [hmk] at h; simp [Except.map] at h
          | t :: qrest =>
              simp only [lookup] at hl
              cases hft : findChild cs0 t with
              | some ct =>
                  rw [hft] at hl
                  split at h
                  · rename_i c hf
                    cases hmk : mkdirs c rest with
                    | ok c2 =>
                        rw [hmk] at h
                        simp only [Except.map, Except.ok.injEq] at h
                        by_cases hts : t = s
                        · subst hts
                          rw [hft] at hf
                          have hcc : ct = c := by injection hf
                          subst hcc
                          obtain ⟨cs2, hl2⟩ := ih hmk hl
                          refine ⟨cs2, ?_⟩
                          rw [← h]
                          simp only [lookup]
                          rw [findChild_replaceChild hft
                            (by rw [mkdirs_name hmk]; exact findChild_name hft)]
                          exact hl2
                        · refine ⟨csq, ?_⟩
                          rw [← h]
                          simp only [lookup]
                          rw [findChild_replaceChild_ne hts
                            (by rw [mkdirs_name hmk]; exact findChild_name hf), hft]
                          exact hl
                    | error e => rw [hmk] at h; simp [Except.map] at h
                  · rename_i hf
                    cases hmk : mkdirs (.dir s [] true) rest with
                    | ok c2 =>
                        rw [hmk] at h
                        simp only [Except.map, Except.ok.injEq] at h
                        refine ⟨csq, ?_⟩
                        rw [← h]
                        simp only [lookup]
                        rw [findChild_append_last hft]
                        exact hl
                    | error e => rw [hmk] at h; simp [Except.map] at h
              | none => rw [hft] at hl; exact absurd hl (by simp)

/-! ## Lemmas about `putFile` and `removeAt` -/

theorem putFile_name {n n' : FsNode} {p : List (List Char)} {co : List Char}
    (h : putFile n p co = .ok n') : n'.name = n.name := by
  match n, p with
  | n, [] => simp [putFile] at h
  | .file .., _ :: _ => simp [putFile] at h
  | .dir nm cs r, [s] =>
      simp only [putFile] at h
      split at h
      · simp only [Except.ok.injEq] at h
        rw [← h]
        rfl
      · split at h
        · simp only [Except.ok.injEq] at h
          rw [← h]
          rfl
        · simp at h
      · simp at h
  | .dir nm cs r, s :: r1 :: r2 =>
      simp only [putFile] at h
      split at h
      · rename_i c hf
        cases hmk : putFile c (r1 :: r2) co with
        | ok c2 =>
            rw [hmk] at h
            simp only [Except.map, Except.ok.injEq] at h
            rw [← h]
            rfl
        | error e => rw [hmk] at h; simp [Except.map] at h
      · simp at h

theorem putFile_lookup_self {p : List (List Char)} :
    ∀ {n n' : FsNode} {co : List Char}, putFile n p co = .ok n' →
    lookup n' p = some (.file (p.getLastD []) co true) := by
  induction p with
  | nil => intro n n' co h; simp [putFile] at h
  | cons s rest ih =>
      intro n n' co h
      match n, rest with
      | .file .., _ => simp [putFile] at h
      | .dir nm cs r, [] =>
          simp only [putFile] at h
          split at h
          · rename_i hf
            simp only [Except.ok.injEq] at h
            rw [← h]
            simp only [lookup, List.getLastD_cons, List.getLastD_nil]
            rw [findChild_append_of_none hf]
            simp [findChild_cons, FsNode.name]
          · rename_i rd hf
            split at h
            · simp only [Except.ok.injEq] at h
              rw [← h]
              simp only [lookup, List.getLastD_cons, List.getLastD_nil]
              rw [findChild_replaceChild hf (show (FsNode.file s co true).name = s from rfl)]
            · simp at h
          · simp at h
      | .dir nm cs r, r1 :: r2 =>
          simp only [putFile] at h
          split at h
          · rename_i c hf
            cases hmk : putFile c (r1 :: r2) co with
            | ok c2 =>
                rw [hmk] at h
                simp only [Except.map, Except.ok.injEq] at h
                rw [← h]
                simp only [lookup, List.getLastD_cons]
                rw [findChild_replaceChild hf
                  (by rw [putFile_name hmk]; exact findChild_name hf)]
                have := ih hmk
                rw [List.getLastD_cons] at this
                exact this
            | error e => rw [hmk] at h; simp [Except.map] at h
          · simp at h

theorem putFile_pres_dir {p : List (List Char)} :
    ∀ {n n' : FsNode} {co : List Char} {q : List (List Char)} {nmq : List Char}
      {csq : List FsNode} {rq : Bool},
    putFile n p co = .ok n' → lookup n q = some (.dir nmq csq rq) →
    ∃ cs2, lookup n' q = some (.dir nmq cs2 rq) := by
  induction p with
  | nil => intro n n' co q nmq csq rq h hl; simp [putFile] at h
  | cons s rest ih =>
      intro n n' co q nmq csq rq h hl
      match n, rest with
      | .file .., _ => simp [putFile] at h
      | .dir nm cs r, [] =>
          simp only [putFile] at h
          match q with
          | [] =>
              simp only [lookup, Option.some.injEq] at hl
              split at h
              · simp only [Except.ok.injEq] at h
                subst h
                injection hl with e1 e2 e3
                subst e1; subst e3
                exact ⟨_, rfl⟩
              · split at h
                · simp only [Except.ok.injEq] at h
                  subst h
                  injection hl with e1 e2 e3
                  subst e1; subst e3
                  exact ⟨_, rfl⟩
                · simp at h
              · simp at h
          | t :: qrest =>
              simp only [lookup] at hl
              cases hft : findChild cs t with
              | some ct =>
                  rw [hft] at hl
                  split at h
                  · rename_i hf
                    simp only [Except.ok.injEq] at h
                    subst h
                    refine ⟨csq, ?_⟩
                    simp only [lookup]
                    rw [findChild_append_last hft]
                    exact hl
                  · rename_i nm2 co2 rd hf
                    split at h
                    · simp only [Except.ok.injEq] at h
                      subst h
                      by_cases hts : t = s
                      · subst hts
                        rw [hft] at hf
                        have : ct = .file nm2 co2 rd := by injection hf
                        subst this
                        match qrest with
                        | [] => simp [lookup] at hl
                        | _ :: _ => simp [lookup] at hl
                      · refine ⟨csq, ?_⟩
                        simp only [lookup]
                        rw [findChild_replaceChild_ne hts
                          (show (FsNode.file s co true).name = s from rfl), hft]
                        exact hl
                    · simp at h
                  · simp at h
              | none => rw [hft] at hl; exact absurd hl (by simp)
      | .dir nm cs r, r1 :: r2 =>
          simp only [putFile] at h
          split at h
          · rename_i c hf
            cases hmk : putFile c (r1 :: r2) co with
            | ok c2 =>
                rw [hmk] at h
                simp only [Except.map, Except.ok.injEq] at h
                match q with
                | [] =>
                    simp only [lookup, Option.some.injEq] at hl
                    subst h
                    injection hl with e1 e2 e3
                    subst e1; subst e3
                    exact ⟨_, rfl⟩
                | t :: qrest =>
                    simp only [lookup] at hl
                    cases hft : findChild cs t with
                    | some ct =>
                        rw [hft] at hl
                        subst h
                        by_cases hts : t = s
                        · subst hts
                          rw [hft] at hf
                          have hcc : ct = c := by injection hf
                          subst hcc
                          obtain ⟨cs2, hl2⟩ := ih hmk hl
                          refine ⟨cs2, ?_⟩
                          simp only [lookup]
                          rw [findChild_replaceChild hft
                            (by rw [putFile_name hmk]; exact findChild_name hft)]
                          exact hl2
                        · refine ⟨csq, ?_⟩
                          simp only [lookup]
                          rw [findChild_replaceChild_ne hts
                            (by rw [putFile_name hmk]; exact findChild_name hf), hft]
                          exact hl
                    | none => rw [hft] at hl; exact absurd hl (by simp)
            | error e => rw [hmk] at h; simp [Except.map] at h
          · simp at h

theorem removeAt_name (n : FsNode) (p : List (List Char)) :
    (removeAt n p).name = n.name := by
  match n, p with
  | .file nm co rd, [] => simp [removeAt]
  | .dir nm cs r, [] => simp [removeAt]
  | .file nm co rd, s :: rest => simp [removeAt]
  | .dir nm cs r, [s] => simp [removeAt, FsNode.name]
  | .dir nm cs r, s :: r1 :: r2 =>
      simp only [removeAt]
      split <;> rfl

/-! ## Well-formedness lemmas -/

theorem wf_dir_parts {nm : List Char} {cs : List FsNode} {r : Bool}
    (h : wfFs (.dir nm cs r) = true) :
    (cs.map FsNode.name).Nodup ∧ wfList cs = true := by
  simp only [wfFs, Bool.and_eq_true, decide_eq_true_eq] at h
  exact h

theorem wfList_mem {cs : List FsNode} {c : FsNode}
    (h : wfList cs = true) (hm : c ∈ cs) : wfFs c = true := by
  induction cs with
  | nil => simp at hm
  | cons x t ih =>
      simp only [wfList, Bool.and_eq_true] at h
      rcases List.mem_cons.mp hm with h1 | h1
      · rw [h1]; exact h.1
      · exact ih h.2 h1

theorem wfList_append {a b : List FsNode} :
    wfList (a ++ b) = (wfList a && wfList b) := by
  induction a with
  | nil => simp [wfList]
  | cons x t ih => simp [wfList, ih, Bool.and_assoc]

theorem wfList_replaceChild {cs : List FsNode} {s : List Char} {c2 : FsNode}
    (h : wfList cs = true) (h2 : wfFs c2 = true) :
    wfList (replaceChild cs s c2) = true := by
  induction cs with
  | nil => rfl
  | cons x t ih =>
      simp only [wfList, Bool.and_eq_true] at h
      by_cases hx : x.name = s
      · simp only [replaceChild, beqTrue hx, if_true, wfList, Bool.and_eq_true]
        exact ⟨h2, h.2⟩
      · simp only [replaceChild, beqFalse hx, Bool.false_eq_true, if_false, wfList,
          Bool.and_eq_true]
        exact ⟨h.1, ih h.2⟩

theorem name_not_mem_of_findChild_none {cs : List FsNode} {s : List Char}
    (h : findChild cs s = none) : s ∉ cs.map FsNode.name := by
  induction cs with
  | nil => simp
  | cons x t ih =>
      rw [findChild_cons] at h
      split at h
      · exact absurd h (by simp)
      · simp only [List.map_cons, List.mem_cons]
        rintro (h1 | h1)
        · exact absurd h1.symm (by assumption)
        · exact ih h h1

theorem wf_mkdirs {p : List (List Char)} :
    ∀ {n n' : FsNode}, wfFs n = true → mkdirs n p = .ok n' → wfFs n' = true := by
  induction p with
  | nil =>
      intro n n' hwf h
      match n with
      | .dir nm cs r =>
          simp only [mkdirs, Except.ok.injEq] at h
          rw [← h]; exact hwf
      | .file .. => simp [mkdirs] at h
  | cons s rest ih =>
      intro n n' hwf h
      match n with
      | .file .. => simp [mkdirs] at h
      | .dir nm cs r =>
          obtain ⟨hnd, hwl⟩ := wf_dir_parts hwf
          simp only [mkdirs] at h
          split at h
          · rename_i c hf
            cases hmk : mkdirs c rest with
            | ok c2 =>
                rw [hmk] at h
                simp only [Except.map, Except.ok.injEq] at h
                subst h
                simp only [wfFs, Bool.and_eq_true, decide_eq_true_eq]
                constructor
                · rw [replaceChild_map_name hf (mkdirs_name hmk)]
                  exact hnd
                · exact wfList_replaceChild hwl (ih (wfList_mem hwl (findChild_mem hf)) hmk)
            | error e => rw [hmk] at h; simp [Except.map] at h
          · rename_i hf
            cases hmk : mkdirs (.dir s [] true) rest with
            | ok c2 =>
                rw [hmk] at h
                simp only [Except.map, Except.ok.injEq] at h
                subst h
                simp only [wfFs, Bool.and_eq_true, decide_eq_true_eq]
                constructor
                · simp only [List.map_append, List.map_cons, List.map_nil]
                  rw [List.nodup_append]
                  refine ⟨hnd, by simp, ?_⟩
                  intro a ha hb
                  simp only [List.mem_singleton] at hb
                  subst hb
                  rw [show c2.name = s from mkdirs_name hmk] at ha
                  exact name_not_mem_of_findChild_none hf ha
                · rw [wfList_append]
                  simp only [Bool.and_eq_true]
                  refine ⟨hwl, ?_⟩
                  simp only [wfList, Bool.and_eq_true]
                  have hw0 : wfFs (FsNode.dir s [] true) = true := by
                    simp [wfFs, wfList]
                  exact ⟨ih hw0 hmk, trivial⟩
            | error e => rw [hmk] at h; simp [Except.map] at h

theorem wf_lookup {p : List (List Char)} :
    ∀ {n x : FsNode}, wfFs n = true → lookup n p = some x → wfFs x = true := by
  induction p with
  | nil =>
      intro n x hwf h
      simp only [lookup, Option.some.injEq] at h
      rw [← h]; exact hwf
  | cons s rest ih =>
      intro n x hwf h
      match n with
      | .file .. => simp [lookup] at h
      | .dir nm cs r =>
          simp only [lookup] at h
          cases hf : findChild cs s with
          | some c =>
              rw [hf] at h
              exact ih (wfList_mem (wf_dir_parts hwf).2 (findChild_mem hf)) h
          | none => rw [hf] at h; exact absurd h (by simp)

/-! ## Lemmas about `removeAt` -/

theorem removeAt_lookup_none {p : List (List Char)} :
    ∀ {n x : FsNode}, p ≠ [] → wfFs n = true → lookup n p = some x →
    lookup (removeAt n p) p = none := by
  induction p with
  | nil => intro n x hne; exact absurd rfl hne
  | cons s rest ih =>
      intro n x _ hwf h
      match n, rest with
      | .file .., _ => simp [lookup] at h
      | .dir nm cs r, [] =>
          simp only [removeAt, lookup]
          rw [findChild_removeChild_of_nodup (wf_dir_parts hwf).1]
      | .dir nm cs r, r1 :: r2 =>
          simp only [lookup] at h
          cases hf : findChild cs s with
          | some c =>
              rw [hf] at h
              simp only [removeAt, hf, lookup]
              rw [findChild_replaceChild hf
                (by rw [removeAt_name]; exact findChild_name hf)]
              exact ih (by simp) (wfList_mem (wf_dir_parts hwf).2 (findChild_mem hf)) h
          | none => rw [hf] at h; exact absurd h (by simp)

theorem removeAt_pres_dir {p : List (List Char)} :
    ∀ {n : FsNode} {q : List (List Char)} {nmq : List Char} {csq : List FsNode} {rq : Bool},
    ¬ (p <+: q) → lookup n q = some (.dir nmq csq rq) →
    ∃ cs2, lookup (removeAt n p) q = some (.dir nmq cs2 rq) := by
  induction p with
  | nil =>
      intro n q nmq csq rq hnp _
      exact absurd ⟨q, rfl⟩ hnp
  | cons s rest ih =>
      intro n q nmq csq rq hnp hl
      match n, rest with
      | .file nm co rd, _ =>
          refine ⟨csq, ?_⟩
          simp only [removeAt]
          exact hl
      | .dir nm cs r, [] =>
          match q with
          | [] =>
              simp only [lookup, Option.some.injEq] at hl
              injection hl with e1 e2 e3
              subst e1; subst e3
              refine ⟨removeChild cs s, ?_⟩
              simp only [removeAt, lookup]
          | t :: qrest =>
              have hts : t ≠ s := by
                intro he
                exact hnp (List.cons_prefix_cons.mpr ⟨he.symm, ⟨qrest, by simp⟩⟩)
              simp only [lookup] at hl
              cases hft : findChild cs t with
              | some ct =>
                  rw [hft] at hl
                  refine ⟨csq, ?_⟩
                  simp only [removeAt, lookup]
                  rw [findChild_removeChild_ne hts, hft]
                  exact hl
              | none => rw [hft] at hl; exact absurd hl (by simp)
      | .dir nm cs r, r1 :: r2 =>
          cases hf : findChild cs s with
          | none =>
              refine ⟨csq, ?_⟩
              simp only [removeAt, hf]
              exact hl
          | some c =>
              simp only [removeAt, hf]
              match q with
              | [] =>
                  simp only [lookup, Option.some.injEq] at hl
                  injection hl with e1 e2 e3
                  subst e1; subst e3
                  exact ⟨_, rfl⟩
              | t :: qrest =>
                  simp only [lookup] at hl
                  cases hft : findChild cs t with
                  | some ct =>
                      rw [hft] at hl
                      by_cases hts : t = s
                      · subst hts
                        rw [hft] at hf
                        have hcc : ct = c := by injection hf
                        subst hcc
                        have hnp2 : ¬ ((r1 :: r2) <+: qrest) := by
                          intro hp
                          exact hnp (List.cons_prefix_cons.mpr ⟨rfl, hp⟩)
                        obtain ⟨cs2, hl2⟩ := ih hnp2 hl
                        refine ⟨cs2, ?_⟩
                        simp only [lookup]
                        rw [findChild_replaceChild hft
                          (by rw [removeAt_name]; exact findChild_name hft)]
                        exact hl2
                      · refine ⟨csq, ?_⟩
                        simp only [lookup]
                        rw [findChild_replaceChild_ne hts
                          (by rw [removeAt_name]; exact findChild_name hf), hft]
                        exact hl
                  | none => rw [hft] at hl; exact absurd hl (by simp)

/-! ## String lemmas: substring survival under trimming, path parsing -/

theorem substrIn_nil (l : List Char) : substrIn [] l = true := by
  induction l with
  | nil => rfl
  | cons c t ih => simp [substrIn, List.isPrefixOf]

theorem isPrefixOf_parts {n l : List Char} :
    n.isPrefixOf l = true ↔ ∃ v, l = n ++ v := by
  induction n generalizing l with
  | nil => simp [List.isPrefixOf]
  | cons a as ih =>
      match l with
      | [] => simp [List.isPrefixOf]
      | b :: bs =>
          simp only [List.isPrefixOf, Bool.and_eq_true, beq_iff_eq, ih, List.cons_append,
            List.cons.injEq]
          constructor
          · rintro ⟨h1, v, h2⟩
            exact ⟨v, h1.symm, h2⟩
          · rintro ⟨v, h1, h2⟩
            exact ⟨h1.symm, v, h2⟩

theorem substrIn_parts {n l : List Char} :
    substrIn n l = true ↔ ∃ u v, l = u ++ n ++ v := by
  induction l with
  | nil =>
      simp only [substrIn, List.isEmpty_iff]
      constructor
      · rintro rfl; exact ⟨[], [], rfl⟩
      · rintro ⟨u, v, h⟩
        rcases List.append_eq_nil.mp h.symm with ⟨h1, h2⟩
        exact (List.append_eq_nil.mp h1).2
  | cons c t ih =>
      simp only [substrIn, Bool.or_eq_true, isPrefixOf_parts, ih]
      constructor
      · rintro (⟨v, hv⟩ | ⟨u, v, huv⟩)
        · exact ⟨[], v, by simp [hv]⟩
        · exact ⟨c :: u, v, by simp [huv]⟩
      · rintro ⟨u, v, huv⟩
        match u with
        | [] => exact Or.inl ⟨v, by simpa using huv⟩
        | x :: us =>
            simp only [List.cons_append, List.cons.injEq] at huv
            exact Or.inr ⟨us, v, huv.2⟩

theorem substrIn_reverse {n l : List Char} (h : substrIn n l = true) :
    substrIn n.reverse l.reverse = true := by
  obtain ⟨u, v, huv⟩ := substrIn_parts.mp h
  refine substrIn_parts.mpr ⟨v.reverse, u.reverse, ?_⟩
  subst huv
  simp [List.reverse_append, List.append_assoc]

theorem substrIn_dropWhile {n l : List Char} {p : Char → Bool}
    (hne : n ≠ []) (hp : ∀ a ∈ n, p a = false) (h : substrIn n l = true) :
    substrIn n (l.dropWhile p) = true := by
  induction l with
  | nil =>
      simp only [substrIn, List.isEmpty_iff] at h
      exact absurd h hne
  | cons c t ih =>
      rw [List.dropWhile_cons]
      by_cases hc : p c = true
      · rw [if_pos hc]
        simp only [substrIn, Bool.or_eq_true] at h
        rcases h with h1 | h1
        · obtain ⟨v, hv⟩ := isPrefixOf_parts.mp h1
          match n with
          | [] => exact absurd rfl hne
          | a :: as =>
              simp only [List.cons_append, List.cons.injEq] at hv
              have := hp a (List.mem_cons_self a as)
              rw [← hv.1] at this
              rw [this] at hc
              exact absurd hc (by simp)
        · exact ih h1
      · rw [if_neg hc]
        exact h

theorem substrIn_dropEnds {n l : List Char} {p : Char → Bool}
    (hne : n ≠ []) (hp : ∀ a ∈ n, p a = false) (h : substrIn n l = true) :
    substrIn n (dropEnds p l) = true := by
  unfold dropEnds
  have h1 := substrIn_dropWhile hne hp h
  have h2 := substrIn_reverse h1
  have h3 := substrIn_dropWhile (n := n.reverse) (by simpa using hne)
    (fun a ha => hp a (List.mem_reverse.mp ha)) h2
  have h4 := substrIn_reverse h3
  simpa using h4

theorem substrIn_stripPath_dotdot {l : List Char}
    (h : substrIn ['.', '.'] l = true) :
    substrIn ['.', '.'] (stripPath l) = true := by
  unfold stripPath
  have h1 := substrIn_dropEnds (p := (· == '/')) (by simp)
    (by intro a ha; rcases List.mem_pair.mp ha with rfl | rfl <;> rfl) h
  exact substrIn_dropEnds (p := isStripSpace) (by simp)
    (by intro a ha; rcases List.mem_pair.mp ha with rfl | rfl <;> rfl) h1

theorem splitOnChar_no_sep {sep : Char} {l : List Char}
    (h : ∀ c ∈ l, c ≠ sep) : splitOnChar sep l = [l] := by
  induction l with
  | nil => rfl
  | cons c t ih =>
      have hc : (c == sep) = false := by
        simpa using h c (List.mem_cons_self c t)
      simp only [splitOnChar, hc, Bool.false_eq_true, if_false]
      rw [ih (fun x hx => h x (List.mem_cons_of_mem c hx))]

theorem userDirSegs_single {uid : List Char} (h : '/' ∉ uid) :
    userDirSegs uid = ["user_".data ++ uid] := by
  have hsep : ∀ c ∈ "user_".data ++ uid, c ≠ '/' := by
    intro c hc
    rcases List.mem_append.mp hc with h1 | h1
    · have h2 : c = 'u' ∨ c = 's' ∨ c = 'e' ∨ c = 'r' ∨ c = '_' := by
        simpa [String.data] using h1
      rcases h2 with rfl | rfl | rfl | rfl | rfl <;> decide
    · exact fun he => h (he ▸ h1)
  have hne1 : ("user_".data ++ uid) ≠ ['.'] := by
    intro he
    simp [String.data] at he
  unfold userDirSegs segsOf
  rw [splitOnChar_no_sep hsep]
  have hcond : (!("user_".data ++ uid).isEmpty && (("user_".data ++ uid) != ['.'])) = true := by
    simp only [Bool.and_eq_true, Bool.not_eq_eq_eq_not, Bool.not_true, List.isEmpty_eq_false,
      bne_iff_ne]
    exact ⟨by simp [String.data], hne1⟩
  simp only [List.filter, hcond]

theorem validate_path_ok_parts {fs fs1 : FsNode} {uid p : List Char}
    {res : List (List Char)}
    (h : validate_path fs uid p = .ok (fs1, res)) :
    ∃ segs, validateRel p = .ok segs ∧ mkdirs fs (userDirSegs uid) = .ok fs1 ∧
      res = userDirSegs uid ++ segs := by
  unfold validate_path at h
  cases hv : validateRel p with
  | error e => rw [hv] at h; simp at h
  | ok segs =>
      rw [hv] at h
      cases hmk : mkdirs fs (userDirSegs uid) with
      | error e => rw [hmk] at h; simp at h
      | ok fs1' =>
          rw [hmk] at h
          simp only at h
          split at h
          · simp only [Except.ok.injEq, Prod.mk.injEq] at h
            exact ⟨segs, rfl, by rw [h.1], h.2.symm⟩
          · simp at h

theorem isPrefixOf_append_self {α : Type} [BEq α] [LawfulBEq α] (u v : List α) :
    u.isPrefixOf (u ++ v) = true := by
  induction u with
  | nil => simp [List.isPrefixOf]
  | cons a as ih => simp [List.isPrefixOf, ih]

theorem validate_path_build {fs fs1 : FsNode} {uid p : List Char}
    {segs : List (List Char)}
    (hv : validateRel p = .ok segs) (hmk : mkdirs fs (userDirSegs uid) = .ok fs1) :
    validate_path fs uid p = .ok (fs1, userDirSegs uid ++ segs) := by
  unfold validate_path
  rw [hv, hmk]
  simp [isPrefixOf_append_self]

/-! ## Claim theorems -/

/-- An empty notes root, used by concrete witnesses. -/
def emptyNotesRoot : FsNode := .dir [] [] true

theorem validate_path_error_of_validateRel {fs : FsNode} {uid p : List Char} {e : Err}
    (h : validateRel p = .error e) : validate_path fs uid p = .error e := by
  unfold validate_path
  rw [h]

/-- C1 (amended): `_validate_path` fails `InvalidPath` when the input string
is empty (the emptiness check precedes trimming), when the input contains a
`..` substring (trimming strips only slashes and whitespace, so the `..`
survives into the checked string), or when the path still begins with `/`
after trimming (e.g. leading whitespace before a slash); and every successful
resolution lies inside the owner's root directory.  The claim's remaining
conditions fail on the code: an input that is empty only after trimming (such
as `"/"` or whitespace) and an input whose leading slashes are stripped (such
as `"/foo"`) pass validation — see the counterexample. -/
theorem resolve_invalidPath_conditions (fs : FsNode) (uid p : List Char) :
    (p = [] → validate_path fs uid p = .error .invalidPath) ∧
    (substrIn ['.', '.'] p = true → validate_path fs uid p = .error .invalidPath) ∧
    ((stripPath p).head? = some '/' → validate_path fs uid p = .error .invalidPath) ∧
    (∀ fs1 res, validate_path fs uid p = .ok (fs1, res) → userDirSegs uid <+: res) := by
  refine ⟨?_, ?_, ?_, ?_⟩
  · intro hp
    subst hp
    exact validate_path_error_of_validateRel rfl
  · intro hdd
    refine validate_path_error_of_validateRel ?_
    unfold validateRel
    by_cases hemp : p.isEmpty
    · rw [if_pos hemp]
    · rw [if_neg hemp, if_pos]
      simp only [Bool.or_eq_true]
      exact Or.inl (substrIn_stripPath_dotdot hdd)
  · intro hsl
    refine validate_path_error_of_validateRel ?_
    unfold validateRel
    by_cases hemp : p.isEmpty
    · rw [if_pos hemp]
    · rw [if_neg hemp, if_pos]
      simp only [Bool.or_eq_true]
      refine Or.inr ?_
      simp [hsl]
  · intro fs1 res hok
    obtain ⟨segs, _, _, hres⟩ := validate_path_ok_parts hok
    exact hres ▸ ⟨segs, rfl⟩

/-- Witness for C1's amended theorem at concrete inputs: the empty path, a
traversal path, a whitespace-then-slash path all fail `InvalidPath`, and a
successful resolution of `"a.md"` stays under the owner's root. -/
theorem resolve_invalidPath_conditions_witness :
    validate_path emptyNotesRoot "u".data [] = .error .invalidPath ∧
    validate_path emptyNotesRoot "u".data "a/../b.md".data = .error .invalidPath ∧
    validate_path emptyNotesRoot "u".data " /evil".data = .error .invalidPath ∧
    userDirSegs "u".data <+: ["user_u".data, "a.md".data] :=
  ⟨(resolve_invalidPath_conditions emptyNotesRoot "u".data []).1 rfl,
   (resolve_invalidPath_conditions emptyNotesRoot "u".data "a/../b.md".data).2.1 (by decide),
   (resolve_invalidPath_conditions emptyNotesRoot "u".data " /evil".data).2.2.1 (by decide),
   (resolve_invalidPath_conditions emptyNotesRoot "u".data "a.md".data).2.2.2
     (.dir [] [.dir "user_u".data [] true] true) ["user_u".data, "a.md".data] rfl⟩

/-- Counterexample to C1 as stated: the input `"/"` is empty after trimming
slashes and whitespace AND begins with `/`, yet `_validate_path` accepts it —
`strip("/")` removes the slashes before the `startswith("/")` check runs, and
the empty remainder resolves to the owner's root itself. -/
theorem resolve_leading_slash_accepted :
    validate_path emptyNotesRoot "u".data "/".data =
      .ok (.dir [] [.dir "user_u".data [] true] true, ["user_u".data]) := rfl

/-- C2: for distinct owners (opaque slash-free identifiers, as the UUID-string
owner ids passed by the routes are), a successful resolution under `O1`'s
sandbox lies inside `O1`'s root and never inside `O2`'s root. -/
theorem sandbox_isolation (fs fs1 : FsNode) (o1 o2 p : List Char)
    (res : List (List Char))
    (h12 : o1 ≠ o2) (h1 : '/' ∉ o1) (h2 : '/' ∉ o2)
    (hok : validate_path fs o1 p = .ok (fs1, res)) :
    userDirSegs o1 <+: res ∧ ¬ (userDirSegs o2 <+: res) := by
  obtain ⟨segs, _, _, hres⟩ := validate_path_ok_parts hok
  subst hres
  constructor
  · exact ⟨segs, rfl⟩
  · intro hpre
    rw [userDirSegs_single h1, userDirSegs_single h2] at hpre
    have he : o2 = o1 := by simpa using hpre
    exact h12 he.symm

/-- Witness for C2 at concrete owners `"a"` and `"b"` and path `"n.md"`. -/
theorem sandbox_isolation_witness :
    userDirSegs "a".data <+: ["user_a".data, "n.md".data] ∧
    ¬ (userDirSegs "b".data <+: ["user_a".data, "n.md".data]) :=
  sandbox_isolation emptyNotesRoot (.dir [] [.dir "user_a".data [] true] true)
    "a".data "b".data "n.md".data ["user_a".data, "n.md".data]
    (by decide) (by decide) (by decide) rfl

/-- C10: the input `"."` passes `_validate_path` (it trims to `"."`, contains
no `..`, and `pathlib` normalizes the `"."` segment away) and resolves to the
owner's root directory itself; `delete_folder` therefore finds an existing
directory (`_get_user_dir` just created it if absent) and `shutil.rmtree`s the
owner's entire root — nothing in the code guards against the root being the
target. -/
theorem delete_folder_dot_deletes_root (fs fs1 : FsNode) (uid : List Char)
    (h : '/' ∉ uid) (hwf : wfFs fs = true)
    (hmk : mkdirs fs (userDirSegs uid) = .ok fs1) :
    validate_path fs uid ['.'] = .ok (fs1, userDirSegs uid) ∧
    delete_folder fs uid ['.'] = .ok (removeAt fs1 (userDirSegs uid)) ∧
    lookup (removeAt fs1 (userDirSegs uid)) (userDirSegs uid) = none := by
  have hv : validateRel ['.'] = .ok [] := rfl
  have hvp : validate_path fs uid ['.'] = .ok (fs1, userDirSegs uid ++ []) :=
    validate_path_build hv hmk
  rw [List.append_nil] at hvp
  obtain ⟨nm2, cs2, r2, hl⟩ := mkdirs_lookup_dir hmk
  refine ⟨hvp, ?_, ?_⟩
  · simp only [delete_folder, hvp, hl]
  · have hwf1 : wfFs fs1 = true := wf_mkdirs hwf hmk
    have hne : userDirSegs uid ≠ [] := by
      rw [userDirSegs_single h]
      simp
    exact removeAt_lookup_none hne hwf1 hl

/-- Witness for C10 at owner `"u"` on an empty notes root: the `.` path
resolves to the root and the whole root directory is removed. -/
theorem delete_folder_dot_witness :
    validate_path emptyNotesRoot "u".data ['.'] =
      .ok (.dir [] [.dir "user_u".data [] true] true, userDirSegs "u".data) ∧
    delete_folder emptyNotesRoot "u".data ['.'] =
      .ok (removeAt (.dir [] [.dir "user_u".data [] true] true) (userDirSegs "u".data)) ∧
    lookup (removeAt (.dir [] [.dir "user_u".data [] true] true) (userDirSegs "u".data))
      (userDirSegs "u".data) = none :=
  delete_folder_dot_deletes_root emptyNotesRoot
    (.dir [] [.dir "user_u".data [] true] true) "u".data (by decide) rfl rfl

theorem write_file_ok_parts {fs fs3 : FsNode} {db db2 : List FileRecord}
    {uid p co : List Char} {now fid rid : Nat}
    (h : write_file fs db uid p co now fid = .ok (fs3, db2, rid)) :
    ∃ fs1 full fs2, validate_path fs uid p = .ok (fs1, full) ∧
      validate_filename (full.getLastD []) = true ∧
      endsWithMd (full.getLastD []) = true ∧
      mkdirs fs1 full.dropLast = .ok fs2 ∧
      putFile fs2 full co = .ok fs3 ∧
      upsertRecord db uid (joinSegs (full.drop (userDirSegs uid).length))
        (deriveTitle (full.getLastD []) co) (derivePreview co) now fid = (db2, rid) := by
  unfold write_file at h
  cases hv : validate_path fs uid p with
  | error e => rw [hv] at h; simp at h
  | ok pair =>
      obtain ⟨fs1, full⟩ := pair
      rw [hv] at h
      simp only at h
      by_cases hvf : validate_filename (full.getLastD []) = true
      · rw [hvf] at h
        simp only [Bool.not_true, Bool.false_eq_true, if_false] at h
        by_cases hmd : endsWithMd (full.getLastD []) = true
        · rw [hmd] at h
          simp only [Bool.not_true, Bool.false_eq_true, if_false] at h
          cases hmk : mkdirs fs1 full.dropLast with
          | error e => rw [hmk] at h; simp at h
          | ok fs2 =>
              rw [hmk] at h
              simp only at h
              cases hput : putFile fs2 full co with
              | error e => rw [hput] at h; simp at h
              | ok fs3' =>
                  rw [hput] at h
                  simp only [Except.ok.injEq, Prod.mk.injEq] at h
                  refine ⟨fs1, full, fs2, rfl, hvf, hmd, hmk, ?_, ?_⟩
                  · rw [hput, h.1]
                  · exact Prod.ext h.2.1 h.2.2
        · rw [Bool.eq_false_iff.mpr hmd] at h
          simp at h
      · rw [Bool.eq_false_iff.mpr hvf] at h
        simp at h

/-- C5 (amended): whenever a write succeeds, reading the same path back in
the resulting state returns exactly the written content.  (The original
universal quantification over every `.md` path with a valid final filename
fails on the code: such a path may still contain `..` and be rejected by
`_validate_path` — see the counterexample.) -/
theorem write_then_read (fs fs3 : FsNode) (db db2 : List FileRecord)
    (uid p co : List Char) (now fid rid : Nat)
    (hok : write_file fs db uid p co now fid = .ok (fs3, db2, rid)) :
    read_file fs3 uid p = .ok co := by
  obtain ⟨fs1, full, fs2, hv, hvf, hmd, hmk2, hput, hup⟩ := write_file_ok_parts hok
  obtain ⟨segs, hvr, hmk1, hfull⟩ := validate_path_ok_parts hv
  obtain ⟨nm0, cs0, r0, hl1⟩ := mkdirs_lookup_dir hmk1
  obtain ⟨cs1, hl2⟩ := mkdirs_pres_dir hmk2 hl1
  obtain ⟨cs2, hl3⟩ := putFile_pres_dir hput hl2
  have hmk3 : mkdirs fs3 (userDirSegs uid) = .ok fs3 := mkdirs_noop hl3
  have hvp3 : validate_path fs3 uid p = .ok (fs3, userDirSegs uid ++ segs) :=
    validate_path_build hvr hmk3
  rw [← hfull] at hvp3
  have hself := putFile_lookup_self hput
  simp only [read_file, hvp3, hself, if_pos]

/-- Witness for C5's amended theorem: write `"hi"` to `"a.md"` for owner
`"u"` on an empty root, then read it back. -/
theorem write_then_read_witness :
    read_file
      (.dir [] [.dir "user_u".data [.file "a.md".data "hi".data true] true] true)
      "u".data "a.md".data = .ok "hi".data :=
  write_then_read emptyNotesRoot
    (.dir [] [.dir "user_u".data [.file "a.md".data "hi".data true] true] true)
    []
    [{ id := 1, user_id := "u".data, file_path := "a.md".data, title := "a.md".data,
       is_public := false, preview := some "hi".data, created_at := 0, updated_at := 0 }]
    "u".data "a.md".data "hi".data 0 1 1 rfl

/-- Counterexample to C5 as stated: `"a..md"` ends in `.md` and its final
segment matches the filename rule `[A-Za-z0-9._-]+`, yet the write (and hence
the round trip) fails `InvalidPath` because the path contains the substring
`..`. -/
theorem write_rejects_valid_md_filename :
    write_file emptyNotesRoot [] "u".data "a..md".data "hi".data 0 1 =
      .error .invalidPath ∧
    validate_filename "a..md".data = true ∧
    endsWithMd "a..md".data = true :=
  ⟨rfl, rfl, rfl⟩

theorem removeRecord_not_mem {db : List FileRecord} {owner rel : List Char}
    {rec : FileRecord} (h : rec ∈ removeRecord db owner rel) :
    ¬ (rec.user_id = owner ∧ rec.file_path = rel) := by
  rintro ⟨h1, h2⟩
  have := (List.mem_filter.mp h).2
  simp [h1, h2] at this

/-- C4: with a validated path, `delete_file` fails `NotFound` when nothing
exists there, fails `InvalidPath` ("Path is not a file") on a directory, and
on a file succeeds, removing the file and (modelled from the spec) any
matching FileRecord — the record removal succeeds for every metadata table,
including one with no matching record; and after a successful delete, a
second delete of the same path fails `NotFound`, so delete never succeeds
twice. -/
theorem delete_file_spec (fs fs1 : FsNode) (db : List FileRecord)
    (uid p : List Char) (full : List (List Char))
    (hv : validate_path fs uid p = .ok (fs1, full)) :
    (lookup fs1 full = none → delete_file fs db uid p = .error .notFound) ∧
    (∀ nm cs r, lookup fs1 full = some (.dir nm cs r) →
        delete_file fs db uid p = .error .invalidPath) ∧
    (∀ nm co rd, lookup fs1 full = some (.file nm co rd) →
        delete_file fs db uid p =
          .ok (removeAt fs1 full,
            removeRecord db uid (joinSegs (full.drop (userDirSegs uid).length))) ∧
        (∀ rec ∈ removeRecord db uid (joinSegs (full.drop (userDirSegs uid).length)),
            ¬ (rec.user_id = uid ∧
               rec.file_path = joinSegs (full.drop (userDirSegs uid).length))) ∧
        (wfFs fs = true → ∀ db',
            delete_file (removeAt fs1 full) db' uid p = .error .notFound)) := by
  refine ⟨?_, ?_, ?_⟩
  · intro hnone
    simp only [delete_file, hv, hnone]
  · intro nm cs r hdir
    simp only [delete_file, hv, hdir]
  · intro nm co rd hfile
    obtain ⟨segs, hvr, hmk, hfull⟩ := validate_path_ok_parts hv
    refine ⟨by simp only [delete_file, hv, hfile], fun rec hm => removeRecord_not_mem hm, ?_⟩
    intro hwf db'
    obtain ⟨nm0, cs0, r0, hl1⟩ := mkdirs_lookup_dir hmk
    have hsegs : segs ≠ [] := by
      intro he
      rw [he, List.append_nil] at hfull
      rw [hfull] at hfile
      rw [hfile] at hl1
      exact absurd hl1 (by simp)
    have hnpre : ¬ (full <+: userDirSegs uid) := by
      intro hp
      have hlen := hp.length_le
      rw [hfull, List.length_append] at hlen
      have : segs.length = 0 := by omega
      exact hsegs (List.length_eq_zero.mp this)
    obtain ⟨cs2, hl2⟩ := removeAt_pres_dir hnpre hl1
    have hmk2 : mkdirs (removeAt fs1 full) (userDirSegs uid) = .ok (removeAt fs1 full) :=
      mkdirs_noop hl2
    have hvp2 : validate_path (removeAt fs1 full) uid p =
        .ok (removeAt fs1 full, userDirSegs uid ++ segs) :=
      validate_path_build hvr hmk2
    rw [← hfull] at hvp2
    have hwf1 : wfFs fs1 = true := wf_mkdirs hwf hmk
    have hfullne : full ≠ [] := by
      rw [hfull]
      intro he
      rcases List.append_eq_nil.mp he with ⟨-, h2⟩
      exact hsegs h2
    have hgone : lookup (removeAt fs1 full) full = none :=
      removeAt_lookup_none hfullne hwf1 hfile
    simp only [delete_file, hvp2, hgone]

/-- A populated notes root used by the delete witnesses: owner `u` has a file
`a.md` and a folder `sub`. -/
def notesRootW : FsNode :=
  .dir [] [.dir "user_u".data
    [.file "a.md".data "x".data true, .dir "sub".data [] true] true] true

/-- Witness for C4: deleting a missing path fails `NotFound`, deleting a
directory fails `InvalidPath`, deleting the file succeeds (removing the
matching FileRecord), and the second delete of the same path fails
`NotFound`. -/
theorem delete_file_spec_witness :
    delete_file notesRootW [] "u".data "zzz.md".data = .error .notFound ∧
    delete_file notesRootW [] "u".data "sub".data = .error .invalidPath ∧
    delete_file notesRootW
        [{ id := 7, user_id := "u".data, file_path := "a.md".data, title := "a".data,
           is_public := false, preview := none, created_at := 1, updated_at := 1 }]
        "u".data "a.md".data =
      .ok (removeAt notesRootW ["user_u".data, "a.md".data], []) ∧
    delete_file (removeAt notesRootW ["user_u".data, "a.md".data]) [] "u".data
      "a.md".data = .error .notFound :=
  ⟨(delete_file_spec notesRootW notesRootW [] "u".data "zzz.md".data
      ["user_u".data, "zzz.md".data] rfl).1 rfl,
   (delete_file_spec notesRootW notesRootW [] "u".data "sub".data
      ["user_u".data, "sub".data] rfl).2.1 "sub".data [] true rfl,
   ((delete_file_spec notesRootW notesRootW
      [{ id := 7, user_id := "u".data, file_path := "a.md".data, title := "a".data,
         is_public := false, preview := none, created_at := 1, updated_at := 1 }]
      "u".data "a.md".data ["user_u".data, "a.md".data] rfl).2.2
      "a.md".data "x".data true rfl).1,
   ((delete_file_spec notesRootW notesRootW [] "u".data "a.md".data
      ["user_u".data, "a.md".data] rfl).2.2
      "a.md".data "x".data true rfl).2.2 rfl []⟩

/-- C3: a successful write derives the preview as the first 200 characters of
the content and upserts the FileRecord keyed by `(owner, relative path)`:
when no record matches, a fresh record is appended (insert) and its new id
returned; when one matches, exactly the matching records are updated in place
(title, preview, updated_at — id, owner, path, privacy, created_at are kept)
and the existing id returned; in both cases the returned id names a record of
the updated table carrying the owner, the path, the fresh preview and the
fresh timestamp.  The metadata half is modelled from the spec (§4.3, §4.5),
as the `db=` integration of `write_file` is absent from the service source
snapshot. -/
theorem write_file_upsert (fs fs3 : FsNode) (db db2 : List FileRecord)
    (uid p co : List Char) (now fid rid : Nat)
    (hok : write_file fs db uid p co now fid = .ok (fs3, db2, rid)) :
    ∃ full fs1, validate_path fs uid p = .ok (fs1, full) ∧
      (let rel := joinSegs (full.drop (userDirSegs uid).length)
       let title := deriveTitle (full.getLastD []) co
       (db.find? (fun r => r.user_id == uid && r.file_path == rel) = none ∧
          rid = fid ∧
          db2 = db ++ [{ id := fid, user_id := uid, file_path := rel, title := title,
                         is_public := false, preview := some (co.take 200),
                         created_at := now, updated_at := now }]) ∨
       (∃ old, db.find? (fun r => r.user_id == uid && r.file_path == rel) = some old ∧
          rid = old.id ∧
          db2 = db.map (fun x =>
            if x.user_id == uid && x.file_path == rel then
              { x with title := title, preview := some (co.take 200), updated_at := now }
            else x))) ∧
      ∃ rec ∈ db2, rec.id = rid ∧ rec.user_id = uid ∧
        rec.file_path = joinSegs (full.drop (userDirSegs uid).length) ∧
        rec.preview = some (co.take 200) ∧ rec.updated_at = now := by
  obtain ⟨fs1, full, fs2, hv, hvf, hmd, hmk2, hput, hup⟩ := write_file_ok_parts hok
  refine ⟨full, fs1, hv, ?_, ?_⟩
  · unfold upsertRecord at hup
    cases hf : db.find? (fun r => r.user_id == uid &&
        r.file_path == joinSegs (full.drop (userDirSegs uid).length)) with
    | none =>
        rw [hf] at hup
        simp only [Prod.mk.injEq] at hup
        exact Or.inl ⟨hf, hup.2.symm, hup.1.symm⟩
    | some old =>
        rw [hf] at hup
        simp only [Prod.mk.injEq] at hup
        exact Or.inr ⟨old, hf, hup.2.symm, hup.1.symm⟩
  · unfold upsertRecord at hup
    cases hf : db.find? (fun r => r.user_id == uid &&
        r.file_path == joinSegs (full.drop (userDirSegs uid).length)) with
    | none =>
        rw [hf] at hup
        simp only [Prod.mk.injEq] at hup
        refine ⟨{ id := fid, user_id := uid,
                  file_path := joinSegs (full.drop (userDirSegs uid).length),
                  title := deriveTitle (full.getLastD []) co, is_public := false,
                  preview := some (co.take 200), created_at := now, updated_at := now },
                ?_, hup.2, rfl, rfl, rfl, rfl⟩
        rw [← hup.1]
        exact List.mem_append_right _ (List.mem_singleton_self _)
    | some old =>
        rw [hf] at hup
        simp only [Prod.mk.injEq] at hup
        have hpred := List.find?_some hf
        simp only [Bool.and_eq_true, beq_iff_eq] at hpred
        refine ⟨{ old with
                    title := deriveTitle (full.getLastD []) co
                    preview := some (co.take 200)
                    updated_at := now },
                ?_, hup.2, hpred.1, hpred.2, rfl, rfl⟩
        rw [← hup.1]
        refine List.mem_map.mpr ⟨old, List.mem_of_find?_eq_some hf, ?_⟩
        have hc : (old.user_id == uid &&
            old.file_path == joinSegs (full.drop (userDirSegs uid).length)) = true := by
          simp [hpred.1, hpred.2]
        rw [if_pos hc]
        rfl

/-- Witness for C3: writing `"hi"` to `"a.md"` for owner `"u"` over an empty
metadata table inserts a record keyed by the owner and path, carrying the
200-character preview and the write timestamp, whose id is returned. -/
theorem write_file_upsert_witness :
    ∃ rec ∈ [{ id := 1, user_id := "u".data, file_path := "a.md".data,
               title := "a.md".data, is_public := false, preview := some "hi".data,
               created_at := 0, updated_at := 0 : FileRecord }],
      rec.id = 1 ∧ rec.user_id = "u".data ∧ rec.file_path = "a.md".data ∧
      rec.preview = some ("hi".data.take 200) ∧ rec.updated_at = 0 := by
  obtain ⟨full, fs1, hv, -, hrec⟩ :=
    write_file_upsert emptyNotesRoot
      (.dir [] [.dir "user_u".data [.file "a.md".data "hi".data true] true] true)
      []
      [{ id := 1, user_id := "u".data, file_path := "a.md".data, title := "a.md".data,
         is_public := false, preview := some "hi".data, created_at := 0, updated_at := 0 }]
      "u".data "a.md".data "hi".data 0 1 1 rfl
  have hv2 : Except.ok (ε := Err) (fs1, full) =
      .ok (FsNode.dir [] [FsNode.dir "user_u".data [] true] true,
        ["user_u".data, "a.md".data]) := by
    rw [← hv]
    rfl
  simp only [Except.ok.injEq, Prod.mk.injEq] at hv2
  rw [hv2.2] at hrec
  exact hrec

/-- C6: `update_file_privacy` selects the record matching both the id and the
requesting owner; when no row of the table matches the pair it fails
`NotFound` (so the table is left untouched), and in particular — ids being
unique, as the primary key guarantees — an owner different from a record's
owner always gets `NotFound` for that record's id. -/
theorem update_file_privacy_notFound (db : List FileRecord) (i : Nat)
    (o : List Char) (b : Bool) :
    ((∀ r ∈ db, ¬ (r.id = i ∧ r.user_id = o)) →
        update_file_privacy db i o b = .error .notFound) ∧
    (∀ r ∈ db, r.id = i → (∀ r2 ∈ db, r2.id = i → r2 = r) →
        ∀ o2, o2 ≠ r.user_id →
        update_file_privacy db i r.user_id b ≠ .error .notFound ∧
        update_file_privacy db i o2 b = .error .notFound) := by
  have hbase : ∀ o3, (∀ r ∈ db, ¬ (r.id = i ∧ r.user_id = o3)) →
      update_file_privacy db i o3 b = .error .notFound := by
    intro o3 hno
    unfold update_file_privacy
    have hfil : db.filter (fun r => r.id == i && r.user_id == o3) = [] := by
      rw [List.filter_eq_nil_iff]
      intro r hr
      simp only [Bool.and_eq_true, beq_iff_eq, not_and]
      intro h1 h2
      exact hno r hr ⟨h1, h2⟩
    rw [hfil]
  refine ⟨hbase _, ?_⟩
  intro r hr hid huniq o2 ho2
  constructor
  · intro hcontra
    unfold update_file_privacy at hcontra
    have hrmem : r ∈ db.filter (fun x => x.id == i && x.user_id == r.user_id) :=
      List.mem_filter.mpr ⟨hr, by simp [hid]⟩
    match hfil : db.filter (fun x => x.id == i && x.user_id == r.user_id) with
    | [] => rw [hfil] at hrmem; simp at hrmem
    | [x] => rw [hfil] at hcontra; simp at hcontra
    | x :: y :: t => rw [hfil] at hcontra; simp at hcontra
  · refine hbase o2 ?_
    rintro r2 hr2 ⟨h1, h2⟩
    have : r2 = r := huniq r2 hr2 h1
    rw [this] at h2
    exact ho2 h2.symm

/-- The one-record metadata table used by the privacy witness. -/
def recW : FileRecord :=
  { id := 1, user_id := "o1".data, file_path := "a.md".data, title := "t".data,
    is_public := false, preview := none, created_at := 0, updated_at := 0 }

/-- Witness for C6: on a one-record table owned by `"o1"`, the owner's toggle
does not 404 while owner `"o2"` toggling the same id fails `NotFound`; an id
matching no record also fails `NotFound`. -/
theorem update_file_privacy_notFound_witness :
    update_file_privacy [recW] 2 "o1".data true = .error .notFound ∧
    update_file_privacy [recW] 1 "o1".data true ≠ .error .notFound ∧
    update_file_privacy [recW] 1 "o2".data true = .error .notFound := by
  have hmain := (update_file_privacy_notFound [recW] 1 "o1".data true).2 recW
    (List.mem_singleton_self recW) rfl
    (by intro r2 hr2 _; simpa using hr2) "o2".data (by decide)
  refine ⟨?_, ?_, ?_⟩
  · exact (update_file_privacy_notFound [recW] 2 "o1".data true).1 (by decide)
  · exact hmain.1
  · exact hmain.2

/-! ## Sortedness of `sortLe` -/

theorem pairwise_insertLe {α : Type} {le : α → α → Bool}
    (htrans : ∀ a b c, le a b = true → le b c = true → le a c = true)
    (htot : ∀ a b, (le a b || le b a) = true)
    {x : α} {l : List α}
    (h : List.Pairwise (fun a b => le a b = true) l) :
    List.Pairwise (fun a b => le a b = true) (insertLe le x l) := by
  induction l with
  | nil => simp [insertLe]
  | cons y t ih =>
      rcases List.pairwise_cons.mp h with ⟨hy, ht⟩
      by_cases hxy : le x y = true
      · simp only [insertLe, hxy, if_true]
        refine List.pairwise_cons.mpr ⟨?_, h⟩
        intro z hz
        rcases List.mem_cons.mp hz with rfl | hz2
        · exact hxy
        · exact htrans x y z hxy (hy z hz2)
      · simp only [insertLe, hxy, Bool.false_eq_true, if_false]
        refine List.pairwise_cons.mpr ⟨?_, ih ht⟩
        intro z hz
        rcases mem_insertLe.mp hz with rfl | hz2
        · have := htot z y
          rw [Bool.eq_false_iff.mpr hxy] at this
          simpa using this
        · exact hy z hz2

theorem pairwise_sortLe {α : Type} {le : α → α → Bool}
    (htrans : ∀ a b c, le a b = true → le b c = true → le a c = true)
    (htot : ∀ a b, (le a b || le b a) = true) (l : List α) :
    List.Pairwise (fun a b => le a b = true) (sortLe le l) := by
  induction l with
  | nil => simp [sortLe]
  | cons x t ih => exact pairwise_insertLe htrans htot ih

/-- C9 (amended): the feed's `limit` defaults to 20 when unspecified; a limit
above 100 is rejected with a 422 validation error (FastAPI's `le=100`
validates, it does not clamp — see the counterexample); a negative offset is
likewise rejected; and every successfully returned page is ordered by
`created_at` descending, each entry joined with its owner's username. -/
theorem get_public_notes_spec (db : List FileRecord) (users : List UserRow)
    (off : Int) :
    (get_public_notes db users none off = get_public_notes db users (some 20) off) ∧
    (∀ l : Int, l > 100 → get_public_notes db users (some l) off = .error .validation) ∧
    (off < 0 → ∀ lim, get_public_notes db users lim off = .error .validation) ∧
    (∀ (lim : Int) page, get_public_notes db users (some lim) off = .ok page →
        List.Pairwise (fun a b => b.created_at ≤ a.created_at) page ∧
        ∀ e ∈ page, ∃ f ∈ db, f.is_public = true ∧ e.id = f.id ∧
          ∃ u ∈ users, u.id = f.user_id ∧ e.username = u.username) := by
  refine ⟨rfl, ?_, ?_, ?_⟩
  · intro l hl
    unfold get_public_notes
    rw [if_pos (by simpa using hl)]
  · intro hoff lim
    unfold get_public_notes
    by_cases hl : (lim.getD 20) > 100
    · rw [if_pos hl]
    · rw [if_neg hl, if_pos hoff]
  · intro lim page hok
    unfold get_public_notes at hok
    split at hok
    · simp at hok
    · split at hok
      · simp at hok
      · simp only [Except.ok.injEq] at hok
        subst hok
        constructor
        · refine List.Pairwise.map _ (fun a b hab => by simpa using hab)
            (List.Pairwise.sublist
              (List.Sublist.trans (List.take_sublist _ _) (List.drop_sublist _ _))
              (pairwise_sortLe ?_ ?_ _))
          · intro a b c h1 h2
            simp only [decide_eq_true_eq] at h1 h2 ⊢
            exact le_trans h2 h1
          · intro a b
            simp only [Bool.or_eq_true, decide_eq_true_eq]
            exact Nat.le_total b.1.created_at a.1.created_at
        · intro e he
          obtain ⟨fu, hfu, hmape⟩ := List.mem_map.mp he
          have hfu2 : fu ∈ sortLe (fun a b =>
              decide (b.1.created_at ≤ a.1.created_at))
              ((db.filter (·.is_public)).filterMap
                (fun f => (users.find? (fun u => u.id == f.user_id)).map
                  (fun u => (f, u.username)))) :=
            (List.Sublist.trans (List.take_sublist _ _) (List.drop_sublist _ _)).mem hfu
          have hfu3 := mem_sortLe.mp hfu2
          obtain ⟨f0, hf0mem, hf0⟩ := List.mem_filterMap.mp hfu3
          cases hfind : users.find? (fun u => u.id == f0.user_id) with
          | none => rw [hfind] at hf0; simp at hf0
          | some u =>
              rw [hfind] at hf0
              simp only [Option.map_some', Option.some.injEq] at hf0
              refine ⟨f0, (List.mem_filter.mp hf0mem).1, ?_, ?_, u,
                List.mem_of_find?_eq_some hfind, ?_, ?_⟩
              · simpa using (List.mem_filter.mp hf0mem).2
              · rw [← hmape, ← hf0]
              · have hpu := List.find?_some hfind
                simpa [beq_iff_eq] using hpu
              · rw [← hmape, ← hf0]

/-- The one-record metadata table and user table used by the feed witnesses. -/
def dbP : List FileRecord :=
  [{ id := 1, user_id := "o1".data, file_path := "a.md".data, title := "t".data,
     is_public := true, preview := some "p".data, created_at := 10, updated_at := 10 }]

def usersP : List UserRow := [{ id := "o1".data, username := "alice".data }]

/-- Counterexample to C9 as stated: a request with `limit = 150` is rejected
with a validation error, it does not behave as if `limit` were 100 — the same
request with `limit = 100` returns the page. -/
theorem limit_not_clamped :
    get_public_notes dbP usersP (some 150) 0 = .error .validation ∧
    get_public_notes dbP usersP (some 100) 0 =
      .ok [{ id := 1, title := "t".data, preview := some "p".data,
             username := "alice".data, user_id := "o1".data,
             created_at := 10, updated_at := 10 }] :=
  ⟨rfl, rfl⟩

/-- Witness for C9's amended theorem at a concrete table: the default limit,
the over-limit rejection, the negative-offset rejection, and the ordering of
a successful page. -/
theorem get_public_notes_spec_witness :
    (get_public_notes dbP usersP none 0 = get_public_notes dbP usersP (some 20) 0) ∧
    get_public_notes dbP usersP (some 150) 0 = .error .validation ∧
    get_public_notes dbP usersP (some 20) (-1) = .error .validation ∧
    (List.Pairwise (fun a b => b.created_at ≤ a.created_at)
        [{ id := 1, title := "t".data, preview := some "p".data,
           username := "alice".data, user_id := "o1".data,
           created_at := 10, updated_at := 10 : PublicNote }] ∧
      ∀ e ∈ [{ id := 1, title := "t".data, preview := some "p".data,
               username := "alice".data, user_id := "o1".data,
               created_at := 10, updated_at := 10 : PublicNote }],
        ∃ f ∈ dbP, f.is_public = true ∧ e.id = f.id ∧
          ∃ u ∈ usersP, u.id = f.user_id ∧ e.username = u.username) :=
  ⟨(get_public_notes_spec dbP usersP 0).1,
   (get_public_notes_spec dbP usersP 0).2.1 150 (by decide),
   (get_public_notes_spec dbP usersP (-1)).2.2.1 (by decide) (some 20),
   (get_public_notes_spec dbP usersP 0).2.2.2 20 _ rfl⟩

/-! ## Characterizing `rglobMd` and `search_files` -/

theorem getLastD_of_ne_nil {α : Type} {l : List α} (h : l ≠ []) (d d' : α) :
    l.getLastD d = l.getLastD d' := by
  match l with
  | [] => exact absurd rfl h
  | a :: t => rw [List.getLastD_cons, List.getLastD_cons]

mutual
theorem rglobMd_mem : ∀ (t : FsNode), wfFs t = true →
    ∀ (p : List (List Char)) (co : List Char) (rd : Bool),
    ((⟨p, co, rd⟩ : MdEntry) ∈ rglobMd t ↔
      reachableFile t p = some (co, rd) ∧ endsWithMd (p.getLastD []) = true)
  | .file nm co' rd', _, p, co, rd => by
      simp only [rglobMd]
      constructor
      · intro h
        simp at h
      · rintro ⟨h1, hends⟩
        match p with
        | [] => exact absurd hends (by decide)
        | _ :: _ => simp [reachableFile] at h1
  | .dir nm cs r, hwf, p, co, rd => by
      obtain ⟨hnd, hwl⟩ := wf_dir_parts hwf
      simp only [rglobMd]
      by_cases hr : r = true
      · subst hr
        rw [if_pos rfl]
        rw [rglobList_mem cs hnd hwl p co rd]
        constructor
        · rintro ⟨s, rest, ch, rfl, hfc, hreach, hends⟩
          refine ⟨?_, hends⟩
          show (findChild cs s).bind (fun ch => reachableFile ch rest) = some (co, rd)
          rw [hfc]
          exact hreach
        · rintro ⟨hreach, hends⟩
          match p with
          | [] => simp [reachableFile] at hreach
          | s :: rest =>
              have hreach2 : (findChild cs s).bind
                  (fun ch => reachableFile ch rest) = some (co, rd) := hreach
              cases hfc : findChild cs s with
              | none =>
                  rw [hfc] at hreach2
                  exact absurd hreach2 (by simp)
              | some ch =>
                  rw [hfc] at hreach2
                  exact ⟨s, rest, ch, rfl, hfc, hreach2, hends⟩
      · rw [if_neg hr]
        constructor
        · intro h; simp at h
        · rintro ⟨hreach, -⟩
          match p with
          | [] => simp [reachableFile] at hreach
          | s :: rest =>
              simp only [reachableFile] at hreach
              rw [if_neg hr] at hreach
              simp at hreach
theorem rglobList_mem : ∀ (cs : List FsNode), (cs.map FsNode.name).Nodup →
    wfList cs = true → ∀ (p : List (List Char)) (co : List Char) (rd : Bool),
    ((⟨p, co, rd⟩ : MdEntry) ∈ rglobList cs ↔
      ∃ s rest ch, p = s :: rest ∧ findChild cs s = some ch ∧
        reachableFile ch rest = some (co, rd) ∧ endsWithMd (p.getLastD []) = true)
  | [], _, _, p, co, rd => by
      simp only [rglobList]
      constructor
      · intro h; simp at h
      · rintro ⟨s, rest, ch, rfl, hfc, -, -⟩
        simp [findChild] at hfc
  | c :: t, hnd, hwl, p, co, rd => by
      simp only [List.map_cons, List.nodup_cons] at hnd
      simp only [wfList, Bool.and_eq_true] at hwl
      simp only [rglobList, List.mem_append]
      rw [rglobList_mem t hnd.2 hwl.2 p co rd]
      constructor
      · rintro (hhead | ⟨s, rest, ch, rfl, hfc, hreach, hends⟩)
        · cases c with
          | file nm co' rd' =>
              simp only at hhead
              by_cases hmd : endsWithMd nm = true
              · rw [if_pos hmd] at hhead
                simp only [List.mem_singleton, MdEntry.mk.injEq] at hhead
                obtain ⟨rfl, rfl, rfl⟩ := hhead
                refine ⟨nm, [], .file nm co rd, rfl, ?_, rfl, by simpa using hmd⟩
                rw [findChild_cons]
                simp [FsNode.name]
              · rw [if_neg hmd] at hhead
                simp at hhead
          | dir nm cs' r' =>
              simp only at hhead
              obtain ⟨e', he', heq⟩ := List.mem_map.mp hhead
              simp only [MdEntry.mk.injEq] at heq
              obtain ⟨rfl, rfl, rfl⟩ := heq
              have hc := (rglobMd_mem (.dir nm cs' r') hwl.1 e'.path e'.content
                e'.readable).mp (by exact he')
              have hne : e'.path ≠ [] := by
                intro hnil
                rw [hnil] at hc
                simp [reachableFile] at hc
              refine ⟨nm, e'.path, .dir nm cs' r', rfl, ?_, hc.1, ?_⟩
              · rw [findChild_cons]
                simp [FsNode.name]
              · rw [List.getLastD_cons, getLastD_of_ne_nil hne nm []]
                exact hc.2
        · have hcs : c.name ≠ s := by
            intro he
            exact hnd.1 (he ▸ name_mem_of_findChild hfc)
          refine ⟨s, rest, ch, rfl, ?_, hreach, hends⟩
          rw [findChild_cons, if_neg hcs]
          exact hfc
      · rintro ⟨s, rest, ch, rfl, hfc, hreach, hends⟩
        rw [findChild_cons] at hfc
        by_cases hcs : c.name = s
        · rw [if_pos hcs] at hfc
          have hch : c = ch := by injection hfc
          subst hch
          refine Or.inl ?_
          cases c with
          | file nm co' rd' =>
              have hnm : nm = s := hcs
              subst hnm
              cases rest with
              | nil =>
                  have hreach2 : co' = co ∧ rd' = rd := by
                    have := hreach
                    simp only [reachableFile, Option.some.injEq, Prod.mk.injEq] at this
                    exact this
                  obtain ⟨rfl, rfl⟩ := hreach2
                  simp only
                  rw [if_pos (by simpa using hends)]
                  simp
              | cons a b => simp [reachableFile] at hreach
          | dir nm cs' r' =>
              have hnm : nm = s := hcs
              subst hnm
              have hne : rest ≠ [] := by
                intro hnil
                rw [hnil] at hreach
                simp [reachableFile] at hreach
              simp only
              refine List.mem_map.mpr ⟨⟨rest, co, rd⟩, ?_, rfl⟩
              refine (rglobMd_mem (.dir nm cs' r') hwl.1 rest co rd).mpr ⟨hreach, ?_⟩
              rw [List.getLastD_cons, getLastD_of_ne_nil hne nm []] at hends
              exact hends
        · rw [if_neg hcs] at hfc
          exact Or.inr ⟨s, rest, ch, rfl, hfc, hreach, hends⟩
end

theorem searchIn_mem {userRoot : FsNode} (hwf : wfFs userRoot = true)
    (q : List Char) (e : SearchResult) :
    e ∈ searchIn userRoot q ↔
      ∃ p co, reachableFile userRoot p = some (co, true) ∧
        endsWithMd (p.getLastD []) = true ∧ containsCI co q = true ∧
        e = ⟨joinSegs p, p.getLastD [], searchSnippet co q⟩ := by
  unfold searchIn
  rw [List.mem_filterMap]
  constructor
  · rintro ⟨entry, hmem, hfe⟩
    by_cases hcond : (entry.readable && containsCI entry.content q) = true
    · rw [if_pos hcond] at hfe
      simp only [Option.some.injEq] at hfe
      simp only [Bool.and_eq_true] at hcond
      have hchar := (rglobMd_mem userRoot hwf entry.path entry.content
        entry.readable).mp (by exact hmem)
      refine ⟨entry.path, entry.content, ?_, hchar.2, hcond.2, hfe.symm⟩
      rw [← hcond.1]
      exact hchar.1
    · rw [if_neg hcond] at hfe
      simp at hfe
  · rintro ⟨p, co, hreach, hends, hci, rfl⟩
    refine ⟨⟨p, co, true⟩, ?_, ?_⟩
    · exact (rglobMd_mem userRoot hwf p co true).mpr ⟨hreach, hends⟩
    · rw [if_pos (by simp [hci])]

/-- C8: a successful search returns exactly the readable `.md` files below
the owner's root — reachable through readable directories, hidden or not —
whose content case-insensitively contains the query, each carrying its
relative path, its filename and the snippet (first query-containing line, by
newline splitting, truncated to 100 characters, falling back to the first
line); in particular the empty query matches every such file. -/
theorem search_files_spec (fs : FsNode) (uid q : List Char)
    (results : List SearchResult)
    (hwf : wfFs fs = true)
    (hok : search_files fs uid q = .ok results) :
    ∃ fs1 root, mkdirs fs (userDirSegs uid) = .ok fs1 ∧
      lookup fs1 (userDirSegs uid) = some root ∧
      (∀ e, e ∈ results ↔ ∃ p co, reachableFile root p = some (co, true) ∧
          endsWithMd (p.getLastD []) = true ∧ containsCI co q = true ∧
          e = ⟨joinSegs p, p.getLastD [], searchSnippet co q⟩) ∧
      (q = [] → ∀ p co, reachableFile root p = some (co, true) →
          endsWithMd (p.getLastD []) = true →
          (⟨joinSegs p, p.getLastD [], searchSnippet co []⟩ : SearchResult) ∈ results) := by
  unfold search_files at hok
  cases hmk : mkdirs fs (userDirSegs uid) with
  | error e => rw [hmk] at hok; simp at hok
  | ok fs1 =>
      rw [hmk] at hok
      simp only at hok
      cases hl : lookup fs1 (userDirSegs uid) with
      | none => rw [hl] at hok; simp at hok
      | some root =>
          rw [hl] at hok
          simp only [Except.ok.injEq] at hok
          subst hok
          have hwfroot : wfFs root = true := wf_lookup (wf_mkdirs hwf hmk) hl
          refine ⟨fs1, root, rfl, hl, fun e => searchIn_mem hwfroot q e, ?_⟩
          intro hq p co hreach hends
          subst hq
          refine (searchIn_mem hwfroot [] _).mpr ⟨p, co, hreach, hends, ?_, rfl⟩
          exact substrIn_nil _

/-- The notes root used by the search witness: owner `u` has a matching file,
a matching file inside a hidden folder, a non-`.md` file and an unreadable
file. -/
def searchNotesRoot : FsNode :=
  .dir [] [.dir "user_u".data
    [.file "a.md".data "Hello World\nsecond".data true,
     .dir ".hid".data [.file "b.md".data "x hello x".data true] true,
     .file "c.txt".data "hello".data true,
     .file "d.md".data "nope".data false] true] true

/-- Witness for C8 at a concrete tree and the query `"HELLO"`: the `.md` file
inside the hidden folder whose content contains the query case-insensitively
is among the results, with its snippet. -/
theorem search_files_spec_witness :
    (⟨".hid/b.md".data, "b.md".data, "x hello x".data⟩ : SearchResult) ∈
      [(⟨"a.md".data, "a.md".data, "Hello World".data⟩ : SearchResult),
       ⟨".hid/b.md".data, "b.md".data, "x hello x".data⟩] := by
  obtain ⟨fs1, root, hmk, hl, hiff, -⟩ :=
    search_files_spec searchNotesRoot "u".data "HELLO".data
      [⟨"a.md".data, "a.md".data, "Hello World".data⟩,
       ⟨".hid/b.md".data, "b.md".data, "x hello x".data⟩]
      rfl rfl
  have hfs1 : Except.ok (ε := Err) fs1 = .ok searchNotesRoot := by
    rw [← hmk]
    rfl
  simp only [Except.ok.injEq] at hfs1
  subst hfs1
  have hroot : Option.some root = some (FsNode.dir "user_u".data
      [.file "a.md".data "Hello World\nsecond".data true,
       .dir ".hid".data [.file "b.md".data "x hello x".data true] true,
       .file "c.txt".data "hello".data true,
       .file "d.md".data "nope".data false] true) := by
    rw [← hl]
    rfl
  simp only [Option.some.injEq] at hroot
  subst hroot
  exact (hiff _).mpr ⟨[".hid".data, "b.md".data], "x hello x".data, rfl, rfl, rfl, rfl⟩

/-! ## TreeBuilder lemmas (C7) -/

theorem build_tree_file (rel : List (List Char)) (nm co : List Char) (rd : Bool) :
    build_tree rel (.file nm co rd) = .file nm rel := by
  rw [build_tree]

theorem build_tree_dir (rel : List (List Char)) (nm : List Char)
    (cs : List FsNode) (r : Bool) :
    build_tree rel (.dir nm cs r) = .folder nm rel
      ((if r then visibleSorted cs else []).map
        (fun c => build_tree (rel ++ [c.name]) c)) := by
  rw [build_tree]
  exact congrArg _
    (List.attach_map_val _ (fun x => build_tree (rel ++ [x.name]) x))

theorem build_tree_name (rel : List (List Char)) (t : FsNode) :
    (build_tree rel t).name = t.name := by
  cases t with
  | file nm co rd => rw [build_tree_file]; rfl
  | dir nm cs r => rw [build_tree_dir]; rfl

theorem build_tree_isFile (rel : List (List Char)) (t : FsNode) :
    (build_tree rel t).isFile = t.isFile := by
  cases t with
  | file nm co rd => rw [build_tree_file]; rfl
  | dir nm cs r => rw [build_tree_dir]; rfl

theorem build_tree_path (rel : List (List Char)) (t : FsNode) :
    (build_tree rel t).path = rel := by
  cases t with
  | file nm co rd => rw [build_tree_file]; rfl
  | dir nm cs r => rw [build_tree_dir]; rfl

/-- The child list of a built node (a file has none). -/
def treeChildren : TreeNode → List TreeNode
  | .file _ _ => []
  | .folder _ _ cs => cs

/-- The raw directory entries of a filesystem node. -/
def fsChildren : FsNode → List FsNode
  | .file _ _ _ => []
  | .dir _ cs _ => cs

mutual
/-- No node of the tree (the node itself included) has a name starting with
`.`. -/
def noHiddenT : TreeNode → Bool
  | .file nm _ => !isHiddenName nm
  | .folder nm _ cs => !isHiddenName nm && noHiddenL cs
def noHiddenL : List TreeNode → Bool
  | [] => true
  | t :: ts => noHiddenT t && noHiddenL ts
end

/-- The `(is_file, name)` key comparison on built nodes. -/
def tKeyLe (a b : TreeNode) : Bool :=
  (!a.isFile && b.isFile) || (a.isFile == b.isFile && charListLe a.name b.name)

/-- Adjacent-pair ordering of a child list by the `(is_file, name)` key:
folders before files, lexicographic by name within each kind. -/
def pairKeyLe : List TreeNode → Bool
  | [] => true
  | [_] => true
  | a :: b :: t => tKeyLe a b && pairKeyLe (b :: t)

mutual
/-- Every folder node's children are ordered by the `(is_file, name)` key,
recursively. -/
def orderedT : TreeNode → Bool
  | .file _ _ => true
  | .folder _ _ cs => pairKeyLe cs && orderedL cs
def orderedL : List TreeNode → Bool
  | [] => true
  | t :: ts => orderedT t && orderedL ts
end

theorem FsNode.inductionOn {motive : FsNode → Prop}
    (hfile : ∀ nm co rd, motive (.file nm co rd))
    (hdir : ∀ nm cs r, (∀ c ∈ cs, motive c) → motive (.dir nm cs r))
    (t : FsNode) : motive t := by
  match t with
  | .file nm co rd => exact hfile nm co rd
  | .dir nm cs r =>
      exact hdir nm cs r (fun c hc => FsNode.inductionOn hfile hdir c)
decreasing_by
  have h := List.sizeOf_lt_of_mem hc
  simp only [FsNode.dir.sizeOf_spec]
  omega

theorem charListLe_total : ∀ a b : List Char, (charListLe a b || charListLe b a) = true
  | [], _ => by simp [charListLe]
  | _ :: _, [] => by simp [charListLe]
  | x :: xs, y :: ys => by
      rcases lt_trichotomy x y with h | h | h
      · simp [charListLe, h]
      · subst h
        have hxx : (decide (x < x)) = false := by simp
        simp only [charListLe, hxx, beq_self_eq_true, Bool.true_and, Bool.false_or]
        exact charListLe_total xs ys
      · simp [charListLe, h]

theorem charListLe_trans : ∀ a b c : List Char,
    charListLe a b = true → charListLe b c = true → charListLe a c = true
  | [], _, _ => by simp [charListLe]
  | x :: xs, [], _ => by simp [charListLe]
  | x :: xs, y :: ys, [] => by simp [charListLe]
  | x :: xs, y :: ys, z :: zs => by
      simp only [charListLe, Bool.or_eq_true, Bool.and_eq_true, decide_eq_true_eq,
        beq_iff_eq]
      rintro (h1 | ⟨rfl, h1⟩) (h2 | ⟨rfl, h2⟩)
      · exact Or.inl (lt_trans h1 h2)
      · exact Or.inl h1
      · exact Or.inl h2
      · exact Or.inr ⟨rfl, charListLe_trans xs ys zs h1 h2⟩

theorem nodeKeyLe_total (a b : FsNode) : (nodeKeyLe a b || nodeKeyLe b a) = true := by
  unfold nodeKeyLe
  cases ha : a.isFile <;> cases hb : b.isFile <;>
    simp [ha, hb, charListLe_total a.name b.name]

theorem nodeKeyLe_trans (a b c : FsNode) (h1 : nodeKeyLe a b = true)
    (h2 : nodeKeyLe b c = true) : nodeKeyLe a c = true := by
  unfold nodeKeyLe at h1 h2 ⊢
  cases ha : a.isFile <;> cases hb : b.isFile <;> cases hc : c.isFile <;>
    simp_all <;> exact charListLe_trans _ _ _ h1 h2

theorem noHiddenL_iff_all {l : List TreeNode} :
    noHiddenL l = true ↔ ∀ t ∈ l, noHiddenT t = true := by
  induction l with
  | nil => simp [noHiddenL]
  | cons t ts ih =>
      simp only [noHiddenL, Bool.and_eq_true, ih, List.mem_cons]
      constructor
      · rintro ⟨h1, h2⟩ x (rfl | hx)
        · exact h1
        · exact h2 x hx
      · intro h
        exact ⟨h t (Or.inl rfl), fun x hx => h x (Or.inr hx)⟩

theorem orderedL_iff_all {l : List TreeNode} :
    orderedL l = true ↔ ∀ t ∈ l, orderedT t = true := by
  induction l with
  | nil => simp [orderedL]
  | cons t ts ih =>
      simp only [orderedL, Bool.and_eq_true, ih, List.mem_cons]
      constructor
      · rintro ⟨h1, h2⟩ x (rfl | hx)
        · exact h1
        · exact h2 x hx
      · intro h
        exact ⟨h t (Or.inl rfl), fun x hx => h x (Or.inr hx)⟩

theorem pairKeyLe_of_pairwise {l : List TreeNode}
    (h : List.Pairwise (fun a b => tKeyLe a b = true) l) : pairKeyLe l = true := by
  induction l with
  | nil => rfl
  | cons a t ih =>
      rcases List.pairwise_cons.mp h with ⟨ha, ht⟩
      match t with
      | [] => rfl
      | b :: t2 =>
          simp only [pairKeyLe, Bool.and_eq_true]
          exact ⟨ha b (List.mem_cons_self b t2), ih ht⟩

theorem mem_visibleSorted {c : FsNode} {cs : List FsNode} :
    c ∈ visibleSorted cs ↔ c ∈ cs ∧ isHiddenName c.name = false := by
  unfold visibleSorted
  rw [List.mem_filter, mem_sortLe]
  simp

theorem pairwise_visibleSorted (cs : List FsNode) :
    List.Pairwise (fun a b => nodeKeyLe a b = true) (visibleSorted cs) :=
  List.Pairwise.filter _
    (pairwise_sortLe (fun a b c => nodeKeyLe_trans a b c) nodeKeyLe_total cs)

theorem tKeyLe_build (r1 r2 : List (List Char)) (a b : FsNode) :
    tKeyLe (build_tree r1 a) (build_tree r2 b) = nodeKeyLe a b := by
  unfold tKeyLe nodeKeyLe
  rw [build_tree_name, build_tree_name, build_tree_isFile, build_tree_isFile]

theorem build_tree_noHidden (t : FsNode) : ∀ rel : List (List Char),
    noHiddenL (treeChildren (build_tree rel t)) = true ∧
    (isHiddenName t.name = false → noHiddenT (build_tree rel t) = true) := by
  induction t using FsNode.inductionOn with
  | hfile nm co rd =>
      intro rel
      rw [build_tree_file]
      exact ⟨rfl, fun h => by simp [noHiddenT, FsNode.name] at h ⊢; simp [h]⟩
  | hdir nm cs r ih =>
      intro rel
      rw [build_tree_dir]
      have hmain : noHiddenL ((if r = true then visibleSorted cs else []).map
          (fun c => build_tree (rel ++ [c.name]) c)) = true := by
        refine noHiddenL_iff_all.mpr ?_
        intro x hx
        obtain ⟨c, hc, rfl⟩ := List.mem_map.mp hx
        by_cases hr : r = true
        · rw [if_pos hr] at hc
          rcases mem_visibleSorted.mp hc with ⟨hmem, hvis⟩
          exact (ih c hmem (rel ++ [c.name])).2 hvis
        · rw [if_neg hr] at hc
          simp at hc
      refine ⟨hmain, ?_⟩
      intro hnm
      simp only [noHiddenT, Bool.and_eq_true]
      constructor
      · simp only [FsNode.name] at hnm
        simp [hnm]
      · exact hmain

theorem build_tree_ordered (t : FsNode) : ∀ rel : List (List Char),
    orderedT (build_tree rel t) = true := by
  induction t using FsNode.inductionOn with
  | hfile nm co rd =>
      intro rel
      rw [build_tree_file]
      rfl
  | hdir nm cs r ih =>
      intro rel
      rw [build_tree_dir]
      simp only [orderedT, Bool.and_eq_true]
      constructor
      · refine pairKeyLe_of_pairwise ?_
        refine List.Pairwise.map (R := fun a b => nodeKeyLe a b = true) _ ?_ ?_
        · intro a b hab
          rw [tKeyLe_build]
          exact hab
        · by_cases hr : r = true
          · rw [if_pos hr]
            exact pairwise_visibleSorted cs
          · rw [if_neg hr]
            simp
      · refine orderedL_iff_all.mpr ?_
        intro x hx
        obtain ⟨c, hc, rfl⟩ := List.mem_map.mp hx
        exact ih c (mem_of_visibleKids hc) (rel ++ [c.name])

/-- C7: a successful `get_tree` returns only the children of the owner's root
(the synthetic root itself is excluded; each returned node corresponds to a
non-hidden entry of the root's listing, with a one-segment path), no node
anywhere in the tree has a name starting with `.`, and every child list —
the top one and every folder's — is ordered folders-then-files and
lexicographically by name within each kind. -/
theorem get_tree_spec (fs : FsNode) (uid : List Char) (l : List TreeNode)
    (hok : get_tree fs uid = .ok l) :
    noHiddenL l = true ∧ pairKeyLe l = true ∧ orderedL l = true ∧
    ∃ fs1 root, mkdirs fs (userDirSegs uid) = .ok fs1 ∧
      lookup fs1 (userDirSegs uid) = some root ∧
      ∀ t ∈ l, ∃ c ∈ fsChildren root, isHiddenName c.name = false ∧
        t.name = c.name ∧ t.isFile = c.isFile ∧ t.path = [c.name] := by
  unfold get_tree at hok
  cases hmk : mkdirs fs (userDirSegs uid) with
  | error e => rw [hmk] at hok; simp at hok
  | ok fs1 =>
      rw [hmk] at hok
      simp only at hok
      cases hl : lookup fs1 (userDirSegs uid) with
      | none => rw [hl] at hok; simp at hok
      | some root =>
          rw [hl] at hok
          simp only at hok
          cases root with
          | file nm co rd =>
              rw [build_tree_file] at hok
              simp only [Except.ok.injEq] at hok
              subst hok
              exact ⟨rfl, rfl, rfl, fs1, .file nm co rd, rfl, hl, by simp⟩
          | dir nm cs r =>
              rw [build_tree_dir] at hok
              simp only [Except.ok.injEq] at hok
              subst hok
              refine ⟨?_, ?_, ?_, fs1, .dir nm cs r, rfl, hl, ?_⟩
              · have := (build_tree_noHidden (.dir nm cs r) []).1
                rw [build_tree_dir] at this
                exact this
              · have := build_tree_ordered (.dir nm cs r) []
                rw [build_tree_dir] at this
                simp only [orderedT, Bool.and_eq_true] at this
                exact this.1
              · have := build_tree_ordered (.dir nm cs r) []
                rw [build_tree_dir] at this
                simp only [orderedT, Bool.and_eq_true] at this
                exact this.2
              · intro t ht
                obtain ⟨c, hc, rfl⟩ := List.mem_map.mp ht
                have hc2 : c ∈ cs ∧ isHiddenName c.name = false := by
                  by_cases hr : r = true
                  · rw [if_pos hr] at hc
                    exact mem_visibleSorted.mp hc
                  · rw [if_neg hr] at hc
                    simp at hc
                exact ⟨c, hc2.1, hc2.2, build_tree_name _ _, build_tree_isFile _ _,
                  by rw [build_tree_path]; simp⟩

/-- The notes root used by the tree witness: owner `u` has files `b.md` and
`.h` (hidden) and a folder `alg` containing `s.md`. -/
def treeNotesRoot : FsNode :=
  .dir [] [.dir "user_u".data
    [.file "b.md".data "x".data true,
     .dir "alg".data [.file "s.md".data "y".data true] true,
     .file ".h".data "z".data true] true] true

/-- Witness for C7 at a concrete tree: the returned listing is hidden-free
and ordered with the folder before the files, recursively. -/
theorem get_tree_spec_witness :
    noHiddenL
      [.folder "alg".data ["alg".data] [.file "s.md".data ["alg".data, "s.md".data]],
       .file "b.md".data ["b.md".data]] = true ∧
    pairKeyLe
      [.folder "alg".data ["alg".data] [.file "s.md".data ["alg".data, "s.md".data]],
       .file "b.md".data ["b.md".data]] = true ∧
    orderedL
      [.folder "alg".data ["alg".data] [.file "s.md".data ["alg".data, "s.md".data]],
       .file "b.md".data ["b.md".data]] = true := by
  have hok : get_tree treeNotesRoot "u".data = .ok
      [.folder "alg".data ["alg".data] [.file "s.md".data ["alg".data, "s.md".data]],
       .file "b.md".data ["b.md".data]] := by
    have hb : build_tree [] (.dir "user_u".data
        [.file "b.md".data "x".data true,
         .dir "alg".data [.file "s.md".data "y".data true] true,
         .file ".h".data "z".data true] true) =
        .folder "user_u".data []
          [.folder "alg".data ["alg".data] [.file "s.md".data ["alg".data, "s.md".data]],
           .file "b.md".data ["b.md".data]] := by
      rw [build_tree_dir]
      rw [show (if true = true then visibleSorted
          [.file "b.md".data "x".data true,
           .dir "alg".data [.file "s.md".data "y".data true] true,
           .file ".h".data "z".data true] else []) =
        [.dir "alg".data [.file "s.md".data "y".data true] true,
         .file "b.md".data "x".data true] from rfl]
      simp only [List.map_cons, List.map_nil]
      rw [build_tree_file, build_tree_dir]
      rw [show (if true = true then visibleSorted
          [FsNode.file "s.md".data "y".data true] else []) =
        [FsNode.file "s.md".data "y".data true] from rfl]
      simp only [List.map_cons, List.map_nil]
      rw [build_tree_file]
      rfl
    show (match build_tree [] (.dir "user_u".data
        [.file "b.md".data "x".data true,
         .dir "alg".data [.file "s.md".data "y".data true] true,
         .file ".h".data "z".data true] true) with
      | TreeNode.folder _ _ children => Except.ok children
      | TreeNode.file _ _ => Except.ok []) = _
    rw [hb]
  have h := get_tree_spec treeNotesRoot "u".data _ hok
  exact ⟨h.1, h.2.1, h.2.2.1⟩
